import Mathlib

/-!
# Verification of the konficurator parser-wasm core

A shallow embedding of `src/parser-wasm` (JSON / ENV / XML byte-preserving
parsers, lenient multi-error validation) together with proofs of the spec's
testable properties.

Conventions:
* Rust `&str` content is modelled as `List Char`; its UTF-8 bytes as
  `List Nat` (`asBytes`).  All spans are byte offsets, as in the source.
* Every source loop is transcribed as a structurally recursive function on an
  explicit fuel argument returning `Option`; public wrappers supply a fuel
  that is proved (or in unreachable default cases, argued) sufficient.
* `serde_json` and `xmlparser` are external crates (the spec treats them as
  external collaborators); they are modelled from the spec where needed and
  marked `Modelled from the spec:` in their doc comments.
-/

namespace Konficurator

/-- `Span` from `src/parser-wasm/src/lib.rs`: a half-open byte range.
The source field `end` is a Lean keyword, so it is called `stop` here. -/
structure Span where
  start : Nat
  stop : Nat
deriving DecidableEq, Repr

/-- `Span::new`. -/
def Span.new (s e : Nat) : Span := ⟨s, e⟩

/-- `Span::len`. -/
def Span.len (s : Span) : Nat := s.stop - s.start

/-- A byte of the UTF-8 encoding, as an unconstrained `Nat`. -/
abbrev Byte := Nat

/-- Rust `char::len_utf8`. -/
def charSize (c : Char) : Nat :=
  if c.toNat < 0x80 then 1
  else if c.toNat < 0x800 then 2
  else if c.toNat < 0x10000 then 3
  else 4

/-- The UTF-8 encoding of a single char. -/
def encodeChar (c : Char) : List Byte :=
  let n := c.toNat
  if n < 0x80 then [n]
  else if n < 0x800 then [0xC0 + n / 64, 0x80 + n % 64]
  else if n < 0x10000 then [0xE0 + n / 4096, 0x80 + n / 64 % 64, 0x80 + n % 64]
  else [0xF0 + n / 262144, 0x80 + n / 4096 % 64, 0x80 + n / 64 % 64, 0x80 + n % 64]

/-- The UTF-8 bytes of a string (Rust `str::as_bytes`). -/
def asBytes : List Char → List Byte
  | [] => []
  | c :: cs => encodeChar c ++ asBytes cs

/-- The UTF-8 byte length of a string (Rust `str::len`). -/
def utf8Len : List Char → Nat
  | [] => 0
  | c :: cs => charSize c + utf8Len cs

/-- Rust `str::char_indices` from a given starting byte offset. -/
def charIndicesAux (off : Nat) : List Char → List (Nat × Char)
  | [] => []
  | c :: cs => (off, c) :: charIndicesAux (off + charSize c) cs

/-- Rust `str::char_indices`: each char paired with its byte offset. -/
def charIndices (l : List Char) : List (Nat × Char) := charIndicesAux 0 l

/-- A byte offset is a UTF-8 char boundary of `l` (start of a char, or one
past the end) - the offsets at which Rust `&str` slicing does not panic. -/
def isCharBoundary (l : List Char) (off : Nat) : Bool :=
  (charIndices l).any (fun p => p.1 == off) || off == utf8Len l

/-- The byte splice `content[..span.start] ++ new_val ++ content[span.end..]`
that `BytePreservingParser::replace_value` performs when both offsets are
char boundaries (see `replace_value_str` for the panic-aware model). -/
def replace_value (content : List Byte) (span : Span) (newVal : List Byte) : List Byte :=
  content.take span.start ++ newVal ++ content.drop span.stop

/-- The bytes `content[span.start..span.end]` - the old literal text. -/
def sliceBytes (content : List Byte) (span : Span) : List Byte :=
  (content.take span.stop).drop span.start

/-- Rust `char::is_whitespace` (the Unicode White_Space property). -/
def rustIsWhitespace (c : Char) : Bool :=
  decide ((0x9 ≤ c.toNat ∧ c.toNat ≤ 0xD) ∨ c.toNat = 0x20 ∨ c.toNat = 0x85 ∨
    c.toNat = 0xA0 ∨ c.toNat = 0x1680 ∨ (0x2000 ≤ c.toNat ∧ c.toNat ≤ 0x200A) ∨
    c.toNat = 0x2028 ∨ c.toNat = 0x2029 ∨ c.toNat = 0x202F ∨ c.toNat = 0x205F ∨
    c.toNat = 0x3000)

/-- The chars of the `&str` slice `content[a..b]`: the chars whose encoded
bytes lie inside the byte range.  For char-boundary-aligned `a` and `b` -
which every key span produced by the ENV lexer is, since that lexer only
splits at ASCII bytes - this is exactly the source's slice. -/
def sliceChars (content : List Char) (a b : Nat) : List Char :=
  ((charIndices content).filter
    (fun p => decide (a ≤ p.1) && decide (p.1 + charSize p.2 ≤ b))).map (fun p => p.2)

/-- Rust `str::trim`: strip leading and trailing Unicode-whitespace chars. -/
def trimChars (l : List Char) : List Char :=
  ((l.dropWhile rustIsWhitespace).reverse.dropWhile rustIsWhitespace).reverse

/-- `BytePreservingParser::replace_value` with Rust `&str` slicing modelled
faithfully (`src/parser-wasm/src/env_parser.rs` lines 14-20):
`&content[..span.start]` and `&content[span.end..]` panic unless the offset
is a char boundary; `none` models the panic, `some` the byte splice. -/
def replace_value_str (content : List Char) (span : Span) (newVal : List Byte) :
    Option (List Byte) :=
  if isCharBoundary content span.start && isCharBoundary content span.stop then
    some ((asBytes content).take span.start ++ newVal ++ (asBytes content).drop span.stop)
  else none

/-- The old literal text `&content[span.start..span.end]` with Rust's slicing
panics modelled: `none` when the range is inverted or an offset is not a
char boundary. -/
def slice_str (content : List Char) (span : Span) : Option (List Byte) :=
  if decide (span.start ≤ span.stop) && isCharBoundary content span.start &&
      isCharBoundary content span.stop then
    some (((asBytes content).take span.stop).drop span.start)
  else none

/-- Rust `u8::is_ascii_whitespace`: space, tab, newline, form feed, carriage return. -/
def isAsciiWhitespaceByte (b : Byte) : Bool :=
  b == 0x20 || b == 0x09 || b == 0x0A || b == 0x0C || b == 0x0D

/-- `&content[b..]` for a byte offset `b` on a char boundary (used to model
Rust suffix slices handed to a sub-tokenizer). -/
def dropBytesChars : List Char → Nat → List Char
  | l, 0 => l
  | [], _ => []
  | c :: rest, b + 1 => dropBytesChars rest (b + 1 - charSize c)

/-- ASCII lower-casing of one char (Rust `str::to_lowercase`, which the
source only applies to ASCII file-type names and error messages). -/
def asciiToLower (c : Char) : Char :=
  if 'A' ≤ c && c ≤ 'Z' then Char.ofNat (c.toNat + 32) else c

/-- Substring containment on char lists (Rust `str::contains`). -/
def containsSub : List Char → List Char → Bool
  | hay, needle =>
    if hay.take needle.length == needle then true
    else
      match hay with
      | [] => needle.isEmpty
      | _ :: t => containsSub t needle

/-- Rust `usize::MAX` (the `budget` used by `lex_lenient` when `max_errors == 0`). -/
def usizeMax : Nat := 2 ^ 64 - 1

/-! ## `src/parser-wasm/src/json_lexer.rs` -/

namespace JsonLexer

/-- Token kinds (`Kind` in json_lexer.rs); `true/false/null` renamed to avoid
clashing with `Bool` constructors. -/
inductive Kind where
  | lBrace | rBrace | lBrack | rBrack | colon | comma
  | stringLit | numberLit | litTrue | litFalse | litNull
deriving DecidableEq, Repr

structure Token where
  kind : Kind
  span : Span
deriving DecidableEq, Repr

structure LexError where
  code : String
  message : String
  span : Span
deriving DecidableEq, Repr

/-- The string-body scan shared verbatim by `lex` (lines 80-105) and
`lex_lenient` (lines 257-278): starting just after the opening quote at
absolute index `i`, consume bytes tracking the escape flag; returns the index
after the scan, whether an unescaped closing quote terminated the string, and
the unconsumed rest. -/
def scanJsonString : List Byte → Nat → Bool → Nat × Bool × List Byte
  | [], i, _ => (i, false, [])
  | b :: rest, i, esc =>
    if b == 0x5C && !esc then scanJsonString rest (i + 1) true
    else if b == 0x22 && !esc then (i + 1, true, rest)
    else if (b == 0x0A || b == 0x0D) && !esc then (i, false, b :: rest)
    else scanJsonString rest (i + 1) false

/-- `matches!(bytes[i], b'0'..=b'9' | b'.' | b'e' | b'E' | b'+' | b'-')`. -/
def isNumTailByte (b : Byte) : Bool :=
  decide (0x30 ≤ b ∧ b ≤ 0x39) || b == 0x2E || b == 0x65 || b == 0x45 || b == 0x2B || b == 0x2D

/-- The greedy number scan shared by `lex` (lines 112-121) and `lex_lenient`
(lines 303-312): from just after the first byte, consume number-tail bytes. -/
def scanJsonNumber : List Byte → Nat → Nat × List Byte
  | [], i => (i, [])
  | b :: rest, i =>
    if isNumTailByte b then scanJsonNumber rest (i + 1) else (i, b :: rest)

/-- The recovery scan of `lex_lenient` (lines 280-290): after an unterminated
string, scan to the next quote (consuming it) or newline (not consumed). -/
def scanToQuoteOrNl : List Byte → Nat → Nat × List Byte
  | [], e => (e, [])
  | b :: rest, e =>
    if b == 0x22 then (e + 1, rest)
    else if b == 0x0A || b == 0x0D then (e, b :: rest)
    else scanToQuoteOrNl rest (e + 1)

def trueBytes : List Byte := [0x74, 0x72, 0x75, 0x65]
def falseBytes : List Byte := [0x66, 0x61, 0x6C, 0x73, 0x65]
def nullBytes : List Byte := [0x6E, 0x75, 0x6C, 0x6C]

/-- The six 1-byte structural tokens (`{ } [ ] : ,`), the first six arms of
both lexer loops. -/
def structKind (b : Byte) : Option Kind :=
  if b == 0x7B then some .lBrace
  else if b == 0x7D then some .rBrace
  else if b == 0x5B then some .lBrack
  else if b == 0x5D then some .rBrack
  else if b == 0x3A then some .colon
  else if b == 0x2C then some .comma
  else none

/-- The `true` / `false` / `null` literal arms of both lexer loops: the kind
and the byte length consumed when the upcoming bytes match. -/
def litKind (b : Byte) (rest : List Byte) : Option (Kind × Nat) :=
  if b == 0x74 && (b :: rest).take 4 == trueBytes then some (.litTrue, 4)
  else if b == 0x66 && (b :: rest).take 5 == falseBytes then some (.litFalse, 5)
  else if b == 0x6E && (b :: rest).take 4 == nullBytes then some (.litNull, 4)
  else none

/-- Two-digit lower-case hex of a byte, for the `0x{:02x}` error message. -/
def hex2 (b : Byte) : String :=
  let dig := fun (n : Nat) => (Nat.digitChar n).toString
  dig (b / 16 % 16) ++ dig (b % 16)

/-- The outcome of one iteration of the strict `lex` loop. -/
inductive StrictStep where
  | done (r : Except String (List Token))
  | cont (i : Nat) (l : List Byte) (toks : List Token)
deriving Repr

/-- One iteration of the `lex` loop (json_lexer.rs lines 50-141): `b` is the
byte at absolute index `i`, `rest` the bytes after it, `toks` the tokens so
far.  `done` is an early `return Err`; `cont` the state for the next
iteration. -/
def lexStep (i : Nat) (b : Byte) (rest : List Byte) (toks : List Token) : StrictStep :=
  match structKind b with
  | some k => .cont (i + 1) rest (toks ++ [⟨k, ⟨i, i + 1⟩⟩])
  | none =>
    if b == 0x22 then
      if (scanJsonString rest (i + 1) false).2.1 then
        .cont (scanJsonString rest (i + 1) false).1 (scanJsonString rest (i + 1) false).2.2
          (toks ++ [⟨.stringLit, ⟨i, (scanJsonString rest (i + 1) false).1⟩⟩])
      else .done (.error "unterminated string")
    else if b == 0x2D || decide (0x30 ≤ b ∧ b ≤ 0x39) then
      .cont (scanJsonNumber rest (i + 1)).1 (scanJsonNumber rest (i + 1)).2
        (toks ++ [⟨.numberLit, ⟨i, (scanJsonNumber rest (i + 1)).1⟩⟩])
    else
      match litKind b rest with
      | some kn => .cont (i + kn.2) ((b :: rest).drop kn.2) (toks ++ [⟨kn.1, ⟨i, i + kn.2⟩⟩])
      | none =>
        if isAsciiWhitespaceByte b then .cont (i + 1) rest toks
        else .done (.error ("unexpected byte 0x" ++ hex2 b ++ " at " ++ Nat.repr i))

/-- The strict lexer `lex` (json_lexer.rs lines 36-144) as a fueled driver of
`lexStep`; `none` means the fuel ran out (never happens with `l.length + 1`,
every iteration consuming at least one byte). -/
def lexF : Nat → Nat → List Byte → List Token → Option (Except String (List Token))
  | 0, _, _, _ => none
  | _ + 1, _, [], toks => some (.ok toks)
  | fuel + 1, i, b :: rest, toks =>
    match lexStep i b rest toks with
    | .done r => some r
    | .cont i2 l2 toks2 => lexF fuel i2 l2 toks2

/-- `lex`: strict JSON lexer over the content bytes. -/
def lex (buf : List Byte) : Except String (List Token) :=
  match lexF (buf.length + 1) 0 buf [] with
  | some r => r
  | none => .error "fuel exhausted"

/-- The outcome of one iteration of the `lex_lenient` loop. -/
inductive LenientStep where
  | done (r : List Token × List LexError)
  | cont (i : Nat) (l : List Byte) (toks : List Token) (errs : List LexError)
deriving Repr

/-- The bottom-of-loop `if errors.len() >= budget { break }` check of
`lex_lenient` (json_lexer.rs lines 340-342): `done` models `break` with the
current tokens and errors, `cont` the state for the next iteration. -/
def lexCheck (budget i2 : Nat) (l2 : List Byte) (toks2 : List Token)
    (errs2 : List LexError) : LenientStep :=
  if budget ≤ errs2.length then .done (toks2, errs2) else .cont i2 l2 toks2 errs2

/-- The `b'"'` arm of the `lex_lenient` loop (json_lexer.rs lines 254-302):
a terminated string becomes a token; an unterminated one becomes a
`json.unterminated_string` error (budget permitting) spanning to the
recovery scan's end. -/
def lexStringBranch (budget i : Nat) (rest : List Byte) (toks : List Token)
    (errs : List LexError) : LenientStep :=
  if (scanJsonString rest (i + 1) false).2.1 then
    lexCheck budget (scanJsonString rest (i + 1) false).1
      (scanJsonString rest (i + 1) false).2.2
      (toks ++ [⟨.stringLit, ⟨i, (scanJsonString rest (i + 1) false).1⟩⟩]) errs
  else
    lexCheck budget
      (scanToQuoteOrNl (scanJsonString rest (i + 1) false).2.2
        (scanJsonString rest (i + 1) false).1).1
      (scanToQuoteOrNl (scanJsonString rest (i + 1) false).2.2
        (scanJsonString rest (i + 1) false).1).2
      toks
      (if errs.length < budget
        then errs ++ [⟨"json.unterminated_string", "Unterminated string literal",
          ⟨i, (scanToQuoteOrNl (scanJsonString rest (i + 1) false).2.2
            (scanJsonString rest (i + 1) false).1).1⟩⟩]
        else errs)

/-- One iteration of the `lex_lenient` loop (json_lexer.rs lines 228-342),
every branch ending in the bottom-of-loop budget check `lexCheck`.  The
source's `.min(bytes.len())` clampings are identities (the scans never run
past the buffer) and are transcribed as such. -/
def lexLenientStep (budget i : Nat) (b : Byte) (rest : List Byte) (toks : List Token)
    (errs : List LexError) : LenientStep :=
  match structKind b with
  | some k => lexCheck budget (i + 1) rest (toks ++ [⟨k, ⟨i, i + 1⟩⟩]) errs
  | none =>
    if b == 0x22 then lexStringBranch budget i rest toks errs
    else if b == 0x2D || decide (0x30 ≤ b ∧ b ≤ 0x39) then
      lexCheck budget (scanJsonNumber rest (i + 1)).1 (scanJsonNumber rest (i + 1)).2
        (toks ++ [⟨.numberLit, ⟨i, (scanJsonNumber rest (i + 1)).1⟩⟩]) errs
    else
      match litKind b rest with
      | some kn =>
        lexCheck budget (i + kn.2) ((b :: rest).drop kn.2)
          (toks ++ [⟨kn.1, ⟨i, i + kn.2⟩⟩]) errs
      | none =>
        if isAsciiWhitespaceByte b then lexCheck budget (i + 1) rest toks errs
        else
          lexCheck budget (i + 1) rest toks
            (if errs.length < budget
              then errs ++ [⟨"json.unexpected_token", "Unexpected byte 0x" ++ hex2 b, ⟨i, i + 1⟩⟩]
              else errs)

/-- The lenient lexer `lex_lenient` (json_lexer.rs lines 208-346) as a fueled
driver of `lexLenientStep`. -/
def lexLenientF : Nat → Nat → List Byte → Nat → List Token → List LexError →
    Option (List Token × List LexError)
  | 0, _, _, _, _, _ => none
  | _ + 1, _, [], _, toks, errs => some (toks, errs)
  | fuel + 1, i, b :: rest, budget, toks, errs =>
    match lexLenientStep budget i b rest toks errs with
    | .done r => some r
    | .cont i2 l2 toks2 errs2 => lexLenientF fuel i2 l2 budget toks2 errs2

/-- `lex_lenient(buf, max_errors)`. -/
def lex_lenient (buf : List Byte) (maxErrors : Nat) : List Token × List LexError :=
  let budget := if maxErrors == 0 then usizeMax else maxErrors
  match lexLenientF (buf.length + 1) 0 buf budget [] [] with
  | some r => r
  | none => ([], [])

end JsonLexer

/-! ## `src/parser-wasm/src/json_parser.rs` -/

namespace JsonParser

/-- The mutable locals of `JsonParser::find_value_span` (json_parser.rs lines
26-33).  `current_path` is in `Vec` order (oldest segment first);
`array_indices` is stored reversed (head = top of the `Vec`), which is
observationally equivalent since the source only pushes/pops/increments the
top and `paths_match` ignores the whole vector. -/
structure St where
  current_path : List (List Char)
  in_string : Bool
  escape_next : Bool
  key_buffer : List Char
  in_key : Bool
  waiting_for_value : Bool
  array_indices : List Nat
deriving Repr

/-- `paths_match` (json_parser.rs lines 223-232).  Note the `_array_indices`
parameter is unused in the source. -/
def paths_match (current_path : List (List Char)) (_array_indices : List Nat)
    (target_path : List (List Char)) : Bool :=
  current_path.length == target_path.length &&
    ((current_path.zip target_path).all fun p => p.1 == p.2)

/-- Loop body of `get_string_content_length` (lines 204-218): walk the
reversed chars, counting, until an unescaped quote. -/
def gsclGo : List Char → Nat → Nat
  | [], len => len
  | ch :: rest, len =>
    let len := len + 1
    if ch == '"' then
      if (rest.takeWhile (fun c => c == '\\')).length % 2 == 0 then len
      else gsclGo rest len
    else gsclGo rest len

/-- `get_string_content_length` (json_parser.rs lines 197-221): length in
chars of the string literal body ending at the closing quote. -/
def get_string_content_length (s : List Char) : Nat :=
  gsclGo (s.reverse.drop 1) 0

/-- The chars of `content[..bEnd]` (byte-sliced prefix). -/
def charsUpTo (content : List Char) (bEnd : Nat) : List Char :=
  ((charIndices content).filter (fun p => p.1 < bEnd)).map (fun p => p.2)

/-- The string-value scan at a matched opening quote (lines 87-102): each
consumed char `(j, c)` sets `end = j + 1`; stops after an unescaped quote. -/
def scanStringValueEnd : List (Nat × Char) → Nat → Bool → Nat
  | [], e, _ => e
  | (j, ch) :: rest, _, esc =>
    if esc then scanStringValueEnd rest (j + 1) false
    else if ch == '\\' then scanStringValueEnd rest (j + 1) true
    else if ch == '"' then j + 1
    else scanStringValueEnd rest (j + 1) false

/-- The peeking scan for a matched non-string value (lines 157-169): extend
`end` while the next char is not whitespace, `,`, `}` or `]`. -/
def scanOtherValueEnd : List (Nat × Char) → Nat → Nat
  | [], e => e
  | (j, ch) :: rest, e =>
    if rustIsWhitespace ch || ch == ',' || ch == '}' || ch == ']' then e
    else scanOtherValueEnd rest (j + 1)

/-- The skip-to-next-token scan for an unmatched non-string value (lines
177-187): consume chars up to (not including) the next delimiter. -/
def skipValue : List (Nat × Char) → List (Nat × Char)
  | [] => []
  | (j, ch) :: rest =>
    if rustIsWhitespace ch || ch == ',' || ch == '}' || ch == ']' then (j, ch) :: rest
    else skipValue rest

/-- `current_path.pop()` guarded by `!current_path.is_empty()`. -/
def popPath (cp : List (List Char)) : List (List Char) :=
  if cp.isEmpty then cp else cp.dropLast

/-- The outcome of one iteration of the `find_value_span` loop: a span was
found, or the loop continues on a token list with a new state. -/
inductive JStep where
  | found (s : Span)
  | cont (l : List (Nat × Char)) (st : St)
deriving Repr

/-- The in-string arm of the `find_value_span` loop body (json_parser.rs
lines 38-105). -/
def findStepStr (content : List Char) (target : List (List Char)) (i : Nat) (ch : Char)
    (rest : List (Nat × Char)) (st : St) : JStep :=
  if st.escape_next then
    .cont rest
      { st with
        escape_next := false
        key_buffer := if st.in_key then st.key_buffer ++ [ch] else st.key_buffer }
  else if ch == '\\' then
    .cont rest
      { st with
        escape_next := true
        key_buffer := if st.in_key then st.key_buffer ++ [ch] else st.key_buffer }
  else if ch == '"' then
    if st.in_key then
      .cont rest
        { st with
          in_string := false
          in_key := false
          waiting_for_value := true }
    else if st.waiting_for_value then
      if paths_match st.current_path st.array_indices target then
        .found ⟨i - get_string_content_length (charsUpTo content (i + 1)) + 1, i + 1⟩
      else
        .cont rest
          { st with
            in_string := false
            waiting_for_value := false
            current_path := popPath st.current_path }
    else
      .cont rest { st with in_string := false }
  else
    .cont rest
      { st with key_buffer := if st.in_key then st.key_buffer ++ [ch] else st.key_buffer }

/-- The `"` arm outside a string (json_parser.rs lines 107-126). -/
def findStepQuote (target : List (List Char)) (i : Nat) (rest : List (Nat × Char))
    (st : St) : JStep :=
  if st.waiting_for_value then
    if paths_match st.current_path st.array_indices target then
      .found ⟨i, scanStringValueEnd rest (i + 1) false⟩
    else .cont rest { st with in_string := true }
  else
    .cont rest
      { st with
        in_string := true
        in_key := true
        key_buffer := [] }

/-- The `,` arm (json_parser.rs lines 142-150). -/
def findStepComma (rest : List (Nat × Char)) (st : St) : JStep :=
  let st2 := if st.waiting_for_value then
      { st with
        waiting_for_value := false
        current_path := popPath st.current_path }
    else st
  .cont rest
    { st2 with array_indices :=
      match st2.array_indices with
      | [] => []
      | x :: r => (x + 1) :: r }

/-- The non-whitespace value arm (json_parser.rs lines 153-189). -/
def findStepValue (target : List (List Char)) (i : Nat) (rest : List (Nat × Char))
    (st : St) : JStep :=
  if st.waiting_for_value then
    if paths_match st.current_path st.array_indices target then
      .found ⟨i, scanOtherValueEnd rest (i + 1)⟩
    else
      .cont (skipValue rest)
        { st with
          waiting_for_value := false
          current_path := popPath st.current_path }
  else
    .cont rest st

/-- One iteration of the main loop of `JsonParser::find_value_span`
(json_parser.rs lines 35-191): `(i, ch)` is the current char at byte offset
`i`, `rest` the chars after it. -/
def findStep (content : List Char) (target : List (List Char)) (i : Nat) (ch : Char)
    (rest : List (Nat × Char)) (st : St) : JStep :=
  if st.in_string then findStepStr content target i ch rest st
  else
    if ch == '"' then findStepQuote target i rest st
    else if ch == '{' then .cont rest st
    else if ch == '}' then
      .cont rest
        { st with
          current_path := popPath st.current_path
          waiting_for_value := false }
    else if ch == '[' then .cont rest { st with array_indices := 0 :: st.array_indices }
    else if ch == ']' then
      .cont rest
        { st with
          array_indices := st.array_indices.tail
          current_path := popPath st.current_path }
    else if ch == ':' then
      if st.key_buffer.isEmpty then .cont rest st
      else
        .cont rest
          { st with
            current_path := st.current_path ++ [st.key_buffer]
            key_buffer := []
            waiting_for_value := true }
    else if ch == ',' then findStepComma rest st
    else if rustIsWhitespace ch then .cont rest st
    else findStepValue target i rest st

/-- The main loop of `JsonParser::find_value_span` as a fueled driver of
`findStep`.  The error messages of the source are collapsed: `none` stands
for any `Err(_)` (and for fuel exhaustion, which `content.length + 1` fuel
rules out since every iteration consumes at least one char). -/
def findLoop (content : List Char) (target : List (List Char)) :
    Nat → List (Nat × Char) → St → Option Span
  | 0, _, _ => none
  | _ + 1, [], _ => none
  | fuel + 1, (i, ch) :: rest, st =>
    match findStep content target i ch rest st with
    | .found s => some s
    | .cont l2 st2 => findLoop content target fuel l2 st2

/-- `JsonParser::find_value_span` (json_parser.rs lines 20-194). -/
def find_value_span (content : List Char) (path : List (List Char)) : Option Span :=
  if path.isEmpty then none
  else findLoop content path (content.length + 1) (charIndices content)
    ⟨[], false, false, [], false, false, []⟩

end JsonParser

/-! ## `src/parser-wasm/src/env_parser.rs` -/

namespace EnvParser

/-- `Quote` (env_parser.rs lines 24-36). -/
inductive Quote where
  | single
  | double
deriving DecidableEq, Repr

/-- `Quote::as_byte`. -/
def Quote.as_byte : Quote → Byte
  | .single => 0x27
  | .double => 0x22

/-- `EntryRaw` (env_parser.rs lines 52-57). -/
structure EntryRaw where
  key_span : Span
  value_span : Span
  quote : Option Quote
deriving DecidableEq, Repr

/-- `LexError` (env_parser.rs lines 59-64). -/
structure LexError where
  msg : String
  line : Nat
  column : Nat
deriving DecidableEq, Repr

/-- `is_space` (env_parser.rs line 226): space or tab. -/
def is_space (b : Byte) : Bool := b == 0x20 || b == 0x09

/-- `trim_ws` (env_parser.rs lines 230-240): strip leading spaces/tabs and
trailing spaces/tabs/newlines/carriage returns. -/
def trim_ws (l : List Byte) : List Byte :=
  let front := l.dropWhile is_space
  (front.reverse.dropWhile (fun b => is_space b || b == 0x0A || b == 0x0D)).reverse

/-- `skip_spaces` (env_parser.rs lines 242-246), functionally: the index after
skipping spaces/tabs from `idx`. -/
def skip_spaces (l : List Byte) (idx : Nat) : Nat :=
  idx + ((l.drop idx).takeWhile is_space).length

/-- `starts_with_kw` (env_parser.rs lines 248-252). -/
def starts_with_kw (buf kw : List Byte) : Bool :=
  decide (kw.length ≤ buf.length) && buf.take kw.length == kw &&
    (match buf.get? kw.length with
     | none => true
     | some c => is_space c)

def exportBytes : List Byte := [0x65, 0x78, 0x70, 0x6F, 0x72, 0x74]

/-- Rust `memchr::memchr`: byte index of the first occurrence. -/
def memchrB (needle : Byte) (l : List Byte) : Option Nat :=
  let k := (l.takeWhile (fun b => b != needle)).length
  if k < l.length then some k else none

/-- The trailing-space strip of the unquoted-value case (env_parser.rs lines
183-185): `while j > val_body_start && is_space(trimmed[j-1]) { j -= 1 }`. -/
def stripTrailing (trimmed : List Byte) (lo : Nat) : Nat → Nat
  | 0 => 0
  | j + 1 =>
    if lo ≤ j && is_space (trimmed.getD j 0) then stripTrailing trimmed lo j
    else j + 1

/-- One line of `iter_lines` (env_parser.rs lines 67-97): the line including
its EOL bytes, and the remainder. -/
def splitLine (bytes : List Byte) : List Byte × List Byte :=
  let idx := (bytes.takeWhile (fun b => !(b == 0x0A || b == 0x0D))).length
  let rest := bytes.drop idx
  let eol_len := if rest.head? == some 0x0D && rest.get? 1 == some 0x0A then 2
    else if rest.isEmpty then 0 else 1
  (bytes.take (idx + eol_len), bytes.drop (idx + eol_len))

/-- `iter_lines`, fueled (each line consumes at least one byte, so
`buf.length + 1` fuel suffices). -/
def iterLinesF : Nat → List Byte → List (List Byte)
  | 0, _ => []
  | _ + 1, [] => []
  | fuel + 1, bytes =>
    let p := splitLine bytes
    p.1 :: iterLinesF fuel p.2

/-- `iter_lines` (env_parser.rs lines 67-97). -/
def iter_lines (buf : List Byte) : List (List Byte) := iterLinesF (buf.length + 1) buf

/-- The value part of a lexed line (env_parser.rs lines 138-208), entered
after the `=` at `idx2` was found: the quoted and unquoted value scans. -/
def lexLineValue (trimmed : List Byte) (offset lead_ws line_no key_start key_end idx2 : Nat) :
    Except LexError (Option EntryRaw) :=
  let idx3 := idx2 + 1
  let idx4 := skip_spaces trimmed idx3
  let quote : Option Quote := match trimmed.get? idx4 with
    | some 0x22 => some .double
    | some 0x27 => some .single
    | _ => none
  match quote with
  | some q =>
    let val_body_start := idx4 + 1
    let j := val_body_start +
      ((trimmed.drop val_body_start).takeWhile (fun b => b != q.as_byte)).length
    if trimmed.length ≤ j then
      .error ⟨"unterminated quoted value", line_no, lead_ws + j + 1⟩
    else
      let val_end := j + 1
      .ok (some
        { key_span := ⟨offset + lead_ws + key_start, offset + lead_ws + key_end⟩
          value_span := ⟨offset + lead_ws + (val_body_start - 1), offset + lead_ws + val_end⟩
          quote := some q })
  | none =>
    let val_body_start := idx4
    let j0 := match memchrB 0x23 (trimmed.drop val_body_start) with
      | some pos => val_body_start + pos
      | none => trimmed.length
    let val_end := stripTrailing trimmed val_body_start j0
    .ok (some
      { key_span := ⟨offset + lead_ws + key_start, offset + lead_ws + key_end⟩
        value_span := ⟨offset + lead_ws + val_body_start, offset + lead_ws + val_end⟩
        quote := none })

/-- The per-line body of the `lex_with_pos` loop (env_parser.rs lines
105-211): `ok none` for a blank/comment line, `ok (some entry)` for a parsed
entry, `error` for a lexical error.  The source computes global offsets as
`offset + (trimmed.as_ptr() - slice.as_ptr()) + k`; that pointer difference
is exactly the count of leading spaces/tabs (`lead_ws`), used here. -/
def lexLine (slice : List Byte) (offset : Nat) (line_no : Nat) :
    Except LexError (Option EntryRaw) :=
  let trimmed := trim_ws slice
  let lead_ws := (slice.takeWhile is_space).length
  if trimmed.isEmpty || trimmed.head? == some 0x23 then .ok none
  else
    let idx0 : Nat := 0
    let idx1 := if starts_with_kw trimmed exportBytes
      then skip_spaces trimmed (idx0 + exportBytes.length) else idx0
    let key_start := idx1
    let key_end := key_start +
      ((trimmed.drop idx1).takeWhile
        (fun b => !(isAsciiWhitespaceByte b) && !(b == 0x3D))).length
    let idx2 := skip_spaces trimmed key_end
    if !(trimmed.get? idx2 == some 0x3D) then
      .error ⟨"missing '=' separator", line_no, lead_ws + idx2 + 1⟩
    else lexLineValue trimmed offset lead_ws line_no key_start key_end idx2

/-- The line fold of `lex_with_pos` (env_parser.rs lines 100-213). -/
def lexLinesGo : List (List Byte) → Nat → Nat → List EntryRaw →
    Except LexError (List EntryRaw)
  | [], _, _, out => .ok out
  | slice :: restLines, offset, line_no, out =>
    match lexLine slice offset line_no with
    | .error e => .error e
    | .ok none => lexLinesGo restLines (offset + slice.length) (line_no + 1) out
    | .ok (some entry) =>
      lexLinesGo restLines (offset + slice.length) (line_no + 1) (out ++ [entry])

/-- `lex_with_pos` (env_parser.rs lines 100-214). -/
def lex_with_pos (buf : List Byte) : Except LexError (List EntryRaw) :=
  lexLinesGo (iter_lines buf) 0 1 []

/-- The trimmed key text of a raw entry: the `&str` slice
`&content[key_span]` trimmed by Rust `str::trim`, which strips Unicode
whitespace (`key.trim()`, env_parser.rs lines 276-278 and 347-349). -/
def entryKey (content : List Char) (r : EntryRaw) : List Char :=
  trimChars (sliceChars content r.key_span.start r.key_span.stop)

/-- `Entry` (env_parser.rs lines 257-263), the fields the claims need. -/
structure Entry where
  key : List Char
  value_span : Span
deriving DecidableEq, Repr

/-- The duplicate-checking fold of `EnvDocument::parse` (env_parser.rs lines
276-288); `none` collapses the `Err(duplicate key)` case. -/
def parseEntriesGo (content : List Char) :
    List EntryRaw → List (List Char) → List Entry → Option (List Entry)
  | [], _, out => some out
  | r :: rest, seen, out =>
    let key := entryKey content r
    if seen.contains key then none
    else parseEntriesGo content rest (seen ++ [key]) (out ++ [⟨key, r.value_span⟩])

/-- `EnvDocument::parse` (env_parser.rs lines 271-290). -/
def parse (content : List Char) : Option (List Entry) :=
  match lex_with_pos (asBytes content) with
  | .error _ => none
  | .ok raw => parseEntriesGo content raw [] []

/-- `EnvParser::find_value_span` (env_parser.rs lines 311-321). -/
def find_value_span (content : List Char) (path : List (List Char)) : Option Span :=
  if !(path.length == 1) then none
  else
    match parse content with
    | none => none
    | some entries =>
      match path.head? with
      | none => none
      | some key =>
        match entries.find? (fun e => e.key == key) with
        | some entry => some entry.value_span
        | none => none

/-- `PosError` (env_parser.rs lines 325-330). -/
structure PosError where
  msg : String
  line : Nat
  column : Nat
deriving DecidableEq, Repr

/-- `offset_to_line_col` (env_parser.rs lines 364-379): 1-based line/column
of a byte offset, walking chars. -/
def offsetToLineColGo (offset : Nat) : List (Nat × Char) → Nat → Nat → Nat × Nat
  | [], line, col => (line, col)
  | (idx, ch) :: rest, line, col =>
    if offset ≤ idx then (line, col)
    else if ch == '\n' then offsetToLineColGo offset rest (line + 1) 1
    else offsetToLineColGo offset rest line (col + 1)

def offset_to_line_col (content : List Char) (offset : Nat) : Nat × Nat :=
  offsetToLineColGo offset (charIndices content) 1 1

/-- The duplicate-key scan of `validate_with_pos` (env_parser.rs lines
346-358). -/
def dupScanGo (content : List Char) : List EntryRaw → List (List Char) →
    Except PosError Unit
  | [], _ => .ok ()
  | r :: rest, seen =>
    let key_trim := entryKey content r
    if seen.contains key_trim then
      let lc := offset_to_line_col content r.key_span.start
      .error ⟨"duplicate key '" ++ String.mk key_trim ++ "'", lc.1, lc.2⟩
    else dupScanGo content rest (seen ++ [key_trim])

/-- `validate_with_pos` (env_parser.rs lines 332-361). -/
def validate_with_pos (content : List Char) : Except PosError Unit :=
  match lex_with_pos (asBytes content) with
  | .error e => .error ⟨e.msg, e.line, e.column⟩
  | .ok raw => dupScanGo content raw []

end EnvParser

/-! ## The `xmlparser` crate (external collaborator) and
`src/parser-wasm/src/xml_parser.rs` -/

namespace Xml

/-- `ElementEnd` kinds of the external tokenizer: `>` / `/>` / `</name>`. -/
inductive XmlEndKind where
  | tagOpen
  | tagEmpty
  | tagClose
deriving DecidableEq, Repr

/-- Modelled from the spec: the event stream of the external `xmlparser`
crate (spec section 4.3): `ElementStart{local,span}` (span starting at the
`<`), `Attribute{local,value}` with the value span surrounding quote bytes
included, `ElementEnd{Open|Close|Empty}`, and `Text{span}` carrying the raw
inter-tag text. -/
inductive XmlEvent where
  | elementStart (localName : List Char) (spanStart : Nat)
  | attr (localName : List Char) (value : Span)
  | elementEnd (kind : XmlEndKind)
  | text (start : Nat) (chars : List Char)
deriving DecidableEq, Repr

/-- XML name characters accepted by the modelled tokenizer. -/
def isNameChar (c : Char) : Bool :=
  c.isAlphanum || c == '_' || c == '-' || c == '.' || c == ':'

/-- Offset of the head char, or `endOff` at end of input. -/
def headOffX (endOff : Nat) : List (Nat × Char) → Nat
  | [] => endOff
  | (i, _) :: _ => i

/-- Tokenizer mode: between tags, or inside an opening tag's attribute list. -/
inductive XmlMode where
  | content
  | inTag
deriving DecidableEq, Repr

/-- The outcome of one step of the modelled tokenizer: emit an event and
continue, consume silently and continue, or halt (end of input or error at
the given offset). -/
inductive XmlStep where
  | emit (ev : XmlEvent) (mode : XmlMode) (l : List (Nat × Char))
  | skip (mode : XmlMode) (l : List (Nat × Char))
  | halt (errOff : Option Nat)
deriving Repr

/-- Modelled from the spec: the tokenizer's handling of a `<` at offset `i`
with `rest` following — a closing tag, an element start, or an error. -/
def xmlLt (endOff i : Nat) (rest : List (Nat × Char)) : XmlStep :=
  match rest with
  | (i2, c2) :: r2 =>
    if c2 == '/' then
      let name := (r2.takeWhile (fun p => isNameChar p.2)).map (fun p => p.2)
      let r3 := r2.dropWhile (fun p => isNameChar p.2)
      if name.isEmpty then .halt (some (headOffX endOff r2))
      else
        match r3.dropWhile (fun p => rustIsWhitespace p.2) with
        | (i4, g) :: r4 =>
          if g == '>' then .emit (.elementEnd .tagClose) .content r4
          else .halt (some i4)
        | [] => .halt (some endOff)
    else
      let name := (rest.takeWhile (fun p => isNameChar p.2)).map (fun p => p.2)
      let r2b := rest.dropWhile (fun p => isNameChar p.2)
      if name.isEmpty then .halt (some i2)
      else .emit (.elementStart name i) .inTag r2b
  | [] => .halt (some endOff)

/-- Modelled from the spec: one tokenizer step in content mode. -/
def xmlStepContent (endOff : Nat) : List (Nat × Char) → XmlStep
  | [] => .halt none
  | (i, c) :: rest =>
    if c == '<' then xmlLt endOff i rest
    else
      let run := ((i, c) :: rest).takeWhile (fun p => !(p.2 == '<'))
      let after := ((i, c) :: rest).dropWhile (fun p => !(p.2 == '<'))
      .emit (.text i (run.map (fun p => p.2))) .content after

/-- Modelled from the spec: the tokenizer's attribute scan, entered at a
name char `c` at offset `i` inside an opening tag. -/
def xmlAttr (endOff i : Nat) (c : Char) (rest : List (Nat × Char)) : XmlStep :=
  let name := (((i, c) :: rest).takeWhile (fun p => isNameChar p.2)).map (fun p => p.2)
  let r2 := ((i, c) :: rest).dropWhile (fun p => isNameChar p.2)
  match r2.dropWhile (fun p => rustIsWhitespace p.2) with
  | (i3, eq) :: r3 =>
    if eq == '=' then
      match r3.dropWhile (fun p => rustIsWhitespace p.2) with
      | (qi, q) :: r4 =>
        if q == '"' || q == '\'' then
          match r4.dropWhile (fun p => !(p.2 == q)) with
          | (qj, _) :: r5 => .emit (.attr name ⟨qi, qj + 1⟩) .inTag r5
          | [] => .halt (some endOff)
        else .halt (some qi)
      | [] => .halt (some endOff)
    else .halt (some i3)
  | [] => .halt (some endOff)

/-- Modelled from the spec: one tokenizer step inside an opening tag. -/
def xmlStepInTag (endOff : Nat) : List (Nat × Char) → XmlStep
  | [] => .halt (some endOff)
  | (i, c) :: rest =>
    if rustIsWhitespace c then .skip .inTag rest
    else if c == '>' then .emit (.elementEnd .tagOpen) .content rest
    else if c == '/' then
      match rest with
      | (i2, g) :: r2 =>
        if g == '>' then .emit (.elementEnd .tagEmpty) .content r2
        else .halt (some i2)
      | [] => .halt (some endOff)
    else if isNameChar c then xmlAttr endOff i c rest
    else .halt (some i)

/-- Modelled from the spec: the external streaming XML tokenizer, fueled,
as a driver of the step functions above.  Returns the events up to the
first error, together with the byte offset of the first error when there is
one (the source's per-token `Result` stream ends at the first `Err`; its
reported position is modelled as the line/column of this offset).  `endOff`
is the byte length of the tokenized buffer, used for errors at end of
input.  Fuel exhaustion is reported as an error at offset 0;
`length + 1` fuel suffices since every step consumes at least one char. -/
def xmlTokF (endOff : Nat) : Nat → XmlMode → List (Nat × Char) →
    List XmlEvent × Option Nat
  | 0, _, _ => ([], some 0)
  | fuel + 1, mode, l =>
    match (match mode with
      | .content => xmlStepContent endOff l
      | .inTag => xmlStepInTag endOff l) with
    | .halt e => ([], e)
    | .skip m2 l2 => xmlTokF endOff fuel m2 l2
    | .emit ev m2 l2 =>
      let res := xmlTokF endOff fuel m2 l2
      (ev :: res.1, res.2)

/-- Modelled from the spec: `xmlparser::Tokenizer::from(content)`, run to the
first error. -/
def xmlTokenize (content : List Char) : List XmlEvent × Option Nat :=
  xmlTokF (utf8Len content) (content.length + 1) .content (charIndices content)

end Xml

namespace XmlParser

open Xml

/-- `XmlPath` (xml_parser.rs lines 12-35); the source field `attribute` is a
Lean keyword and is called `attr` here.  `trim_start_matches('@')` strips
every leading `@`. -/
structure XmlPath where
  elements : List (List Char)
  attr : Option (List Char)
deriving DecidableEq, Repr

/-- `XmlPath::from_path` (xml_parser.rs lines 19-34). -/
def XmlPath.from_path (path : List (List Char)) : XmlPath :=
  if decide (2 ≤ path.length) && ((path.getLast?.getD []).head? == some '@') then
    { elements := path.dropLast
      attr := some ((path.getLast?.getD []).dropWhile (fun c => c == '@')) }
  else
    { elements := path, attr := none }

/-- `elements_match` (xml_parser.rs lines 174-180). -/
def elements_match (current target : List (List Char)) : Bool :=
  current.length == target.length &&
    ((current.zip target).all fun p => p.1 == p.2)

/-- The attribute scan (xml_parser.rs lines 104-119): walk the re-tokenized
element's events; a matching attribute's value span minus the quote bytes,
or `none` ("Attribute not found") at the element's end. -/
def attrScan (spanStart : Nat) (attrName : List Char) : List XmlEvent → Option Span
  | [] => none
  | .attr localName v :: rest =>
    if localName == attrName then some ⟨spanStart + v.start + 1, spanStart + v.stop - 1⟩
    else attrScan spanStart attrName rest
  | .elementEnd _ :: _ => none
  | _ :: rest => attrScan spanStart attrName rest

/-- Byte index (within the text) of the first non-whitespace char:
`text.find(|c: char| !c.is_whitespace())`. -/
def findNonWsByteIdx : List Char → Option Nat
  | [] => none
  | c :: rest =>
    if rustIsWhitespace c then (findNonWsByteIdx rest).map (fun k => charSize c + k)
    else some 0

/-- Byte index (within the text) of the start of the last non-whitespace
char: `text.rfind(|c: char| !c.is_whitespace())`. -/
def rfindNonWsByteIdx : List Char → Option Nat
  | [] => none
  | c :: rest =>
    match rfindNonWsByteIdx rest with
    | some k => some (charSize c + k)
    | none => if rustIsWhitespace c then none else some 0

/-- The event loop of `XmlParser::find_value_span` (xml_parser.rs lines
91-168). -/
def findLoop (content : List Char) (xp : XmlPath) :
    List XmlEvent → List (List Char) → Bool → Option Span
  | [], _, _ => none
  | ev :: rest, element_stack, in_target_element =>
    match ev with
    | .elementStart localName spanStart =>
      let stack2 := element_stack ++ [localName]
      if stack2.length == xp.elements.length && elements_match stack2 xp.elements then
        match xp.attr with
        | some attrName =>
          attrScan spanStart attrName (xmlTokenize (dropBytesChars content spanStart)).1
        | none => findLoop content xp rest stack2 true
      else findLoop content xp rest stack2 in_target_element
    | .elementEnd kind =>
      match kind with
      | .tagOpen => findLoop content xp rest element_stack in_target_element
      | .tagEmpty =>
        let in2 := if in_target_element && xp.attr.isNone then false else in_target_element
        findLoop content xp rest element_stack.dropLast in2
      | .tagClose =>
        let in2 := if in_target_element && xp.attr.isNone then false else in_target_element
        findLoop content xp rest element_stack.dropLast in2
    | .text start chars =>
      if in_target_element && xp.attr.isNone then
        let trimmed := (chars.dropWhile rustIsWhitespace).reverse.dropWhile rustIsWhitespace
        if !trimmed.isEmpty then
          let content_start := (findNonWsByteIdx chars).getD 0
          let content_stop := match rfindNonWsByteIdx chars with
            | some k => k + 1
            | none => utf8Len chars
          some ⟨start + content_start, start + content_stop⟩
        else findLoop content xp rest element_stack in_target_element
      else findLoop content xp rest element_stack in_target_element
    | .attr _ _ => findLoop content xp rest element_stack in_target_element

/-- `XmlParser::find_value_span` (xml_parser.rs lines 81-171), over the
spec-modelled tokenizer's event stream.  `none` collapses all `Err(_)`
outcomes (empty path, tokenizer error, attribute/path not found). -/
def find_value_span (content : List Char) (path : List (List Char)) : Option Span :=
  if path.isEmpty then none
  else
    let xp := XmlPath.from_path path
    findLoop content xp (xmlTokenize content).1 [] false

end XmlParser

/-! ## Line/column helpers from `src/parser-wasm/src/lib.rs` -/

/-- The inner column walk of `compute_offset_from_line_col` (lib.rs lines
436-451): from the start of the target line, advance char by char until the
requested column, end of line, or end of buffer; returns the byte index. -/
def walkColGo (column : Nat) : List (Nat × Char) → Nat → Nat → Nat
  | [], _, iEnd => iEnd
  | (i, c) :: rest, col, _ =>
    if col == column then i
    else if c == '\n' || c == '\r' then i
    else walkColGo column rest (col + 1) (i + charSize c)

/-- The outer line scan of `compute_offset_from_line_col` (lib.rs lines
428-463). -/
def cofLcGo (line column : Nat) : List (Nat × Char) → Nat → Nat → Nat
  | [], _, offset => offset
  | (idx, ch) :: rest, current_line, offset =>
    if current_line == line then walkColGo column ((idx, ch) :: rest) 1 (idx + charSize ch)
    else if ch == '\n' then
      let current_line2 := current_line + 1
      let offset2 := idx + 1
      if line < current_line2 then offset2
      else cofLcGo line column rest current_line2 offset2
    else cofLcGo line column rest current_line offset

/-- `compute_offset_from_line_col` (lib.rs lines 428-463): byte offset of a
1-based (line, column) position. -/
def compute_offset_from_line_col (content : List Char) (line column : Nat) : Nat :=
  cofLcGo line column (charIndices content) 1 0

/-- `compute_line_col_from_offset` (lib.rs lines 465-481). -/
def clcGo (clamped : Nat) : List (Nat × Char) → Nat → Nat → Nat × Nat
  | [], line, column => (line, column)
  | (idx, ch) :: rest, line, column =>
    if clamped ≤ idx then (line, column)
    else if ch == '\n' then clcGo clamped rest (line + 1) 1
    else clcGo clamped rest line (column + 1)

def compute_line_col_from_offset (content : List Char) (offset : Nat) : Nat × Nat :=
  clcGo (min offset (utf8Len content)) (charIndices content) 1 1

/-! ## A ground-truth JSON decoder (the `serde_json` external collaborator)

Modelled from the spec: section 4.4 requires "a standards-compliant JSON
decoder as ground truth for *is this valid JSON* and *where is the canonical
first error*".  `serdeFirstError` returns the byte offset of the first
grammar error of an RFC 8259 document (or `none` when valid); the reported
line/column of the error (`err.line()` / `err.column()`) are modelled as
`compute_line_col_from_offset` of that offset, and the message as the
constant `serdeMessage`. -/

namespace SerdeJson

def isJsonWs (c : Char) : Bool := c == ' ' || c == '\t' || c == '\n' || c == '\r'

def skipWs (cs : List (Nat × Char)) : List (Nat × Char) :=
  cs.dropWhile (fun p => isJsonWs p.2)

/-- Offset of the head char, or `endOff` at end of input. -/
def headOff (endOff : Nat) : List (Nat × Char) → Nat
  | [] => endOff
  | (i, _) :: _ => i

def isHexDigit (c : Char) : Bool :=
  c.isDigit || ('a' ≤ c && c ≤ 'f') || ('A' ≤ c && c ≤ 'F')

/-- Modelled from the spec: string-literal body after the opening quote.
`esc` is true right after a backslash. -/
def parseStringF (endOff : Nat) : Nat → List (Nat × Char) →
    Except Nat (List (Nat × Char))
  | 0, cs => .error (headOff endOff cs)
  | fuel + 1, cs =>
    match cs with
    | [] => .error endOff
    | (j, ch) :: r =>
      if ch == '"' then .ok r
      else if ch == '\\' then
        match r with
        | [] => .error endOff
        | (k, e) :: r2 =>
          if e == '"' || e == '\\' || e == '/' || e == 'b' || e == 'f' ||
              e == 'n' || e == 'r' || e == 't' then
            parseStringF endOff fuel r2
          else if e == 'u' then
            if (r2.take 4).length == 4 && (r2.take 4).all (fun p => isHexDigit p.2) then
              parseStringF endOff fuel (r2.drop 4)
            else .error k
          else .error k
      else if decide (ch.toNat < 0x20) then .error j
      else parseStringF endOff fuel r

/-- Modelled from the spec: number grammar
`-? (0 | [1-9][0-9]*) (. [0-9]+)? ([eE] [+-]? [0-9]+)?`. -/
def parseNumber (endOff : Nat) (cs : List (Nat × Char)) :
    Except Nat (List (Nat × Char)) :=
  let afterSign := match cs with
    | (_, c) :: r => if c == '-' then r else cs
    | [] => cs
  match afterSign with
  | [] => .error endOff
  | (j, d) :: r1 =>
    if !d.isDigit then .error j
    else
      let intRest := if d == '0' then r1 else r1.dropWhile (fun p => p.2.isDigit)
      let fracRes : Except Nat (List (Nat × Char)) :=
        match intRest with
        | (_, dot) :: r2 =>
          if dot == '.' then
            if (r2.takeWhile (fun p => p.2.isDigit)).isEmpty then
              .error (headOff endOff r2)
            else .ok (r2.dropWhile (fun p => p.2.isDigit))
          else .ok intRest
        | [] => .ok intRest
      match fracRes with
      | .error o => .error o
      | .ok afterFrac =>
        match afterFrac with
        | (_, e) :: r3 =>
          if e == 'e' || e == 'E' then
            let r4 := match r3 with
              | (_, sg) :: r4b => if sg == '+' || sg == '-' then r4b else r3
              | [] => r3
            if (r4.takeWhile (fun p => p.2.isDigit)).isEmpty then
              .error (headOff endOff r4)
            else .ok (r4.dropWhile (fun p => p.2.isDigit))
          else .ok afterFrac
        | [] => .ok afterFrac

mutual

/-- Modelled from the spec: one JSON value, leading whitespace allowed. -/
def parseValueF (endOff : Nat) : Nat → List (Nat × Char) →
    Except Nat (List (Nat × Char))
  | 0, cs => .error (headOff endOff cs)
  | fuel + 1, cs =>
    match skipWs cs with
    | [] => .error endOff
    | (i, c) :: rest =>
      if c == '{' then parseObjectF endOff fuel rest
      else if c == '[' then parseArrayF endOff fuel rest
      else if c == '"' then parseStringF endOff (rest.length + 1) rest
      else if c == 't' then
        if (((i, c) :: rest).take 4).map (fun p => p.2) == "true".data
        then .ok (((i, c) :: rest).drop 4) else .error i
      else if c == 'f' then
        if (((i, c) :: rest).take 5).map (fun p => p.2) == "false".data
        then .ok (((i, c) :: rest).drop 5) else .error i
      else if c == 'n' then
        if (((i, c) :: rest).take 4).map (fun p => p.2) == "null".data
        then .ok (((i, c) :: rest).drop 4) else .error i
      else if c == '-' || c.isDigit then parseNumber endOff ((i, c) :: rest)
      else .error i

/-- Modelled from the spec: object members after the `{`. -/
def parseObjectF (endOff : Nat) : Nat → List (Nat × Char) →
    Except Nat (List (Nat × Char))
  | 0, cs => .error (headOff endOff cs)
  | fuel + 1, cs =>
    match skipWs cs with
    | [] => .error endOff
    | (i, c) :: rest =>
      if c == '}' then .ok rest
      else if c == '"' then
        match parseStringF endOff (rest.length + 1) rest with
        | .error o => .error o
        | .ok afterKey =>
          match skipWs afterKey with
          | [] => .error endOff
          | (j, c2) :: rest2 =>
            if c2 == ':' then
              match parseValueF endOff fuel rest2 with
              | .error o => .error o
              | .ok afterVal =>
                match skipWs afterVal with
                | [] => .error endOff
                | (k, c3) :: rest3 =>
                  if c3 == ',' then parseMembersF endOff fuel rest3
                  else if c3 == '}' then .ok rest3
                  else .error k
            else .error j
      else .error i

/-- Modelled from the spec: object members after a `,` (a key is required). -/
def parseMembersF (endOff : Nat) : Nat → List (Nat × Char) →
    Except Nat (List (Nat × Char))
  | 0, cs => .error (headOff endOff cs)
  | fuel + 1, cs =>
    match skipWs cs with
    | [] => .error endOff
    | (i, c) :: rest =>
      if c == '"' then
        match parseStringF endOff (rest.length + 1) rest with
        | .error o => .error o
        | .ok afterKey =>
          match skipWs afterKey with
          | [] => .error endOff
          | (j, c2) :: rest2 =>
            if c2 == ':' then
              match parseValueF endOff fuel rest2 with
              | .error o => .error o
              | .ok afterVal =>
                match skipWs afterVal with
                | [] => .error endOff
                | (k, c3) :: rest3 =>
                  if c3 == ',' then parseMembersF endOff fuel rest3
                  else if c3 == '}' then .ok rest3
                  else .error k
            else .error j
      else .error i

/-- Modelled from the spec: array elements after the `[`. -/
def parseArrayF (endOff : Nat) : Nat → List (Nat × Char) →
    Except Nat (List (Nat × Char))
  | 0, cs => .error (headOff endOff cs)
  | fuel + 1, cs =>
    match skipWs cs with
    | [] => .error endOff
    | (i, c) :: rest =>
      if c == ']' then .ok rest
      else
        match parseValueF endOff fuel ((i, c) :: rest) with
        | .error o => .error o
        | .ok afterVal =>
          match skipWs afterVal with
          | [] => .error endOff
          | (k, c3) :: rest3 =>
            if c3 == ',' then parseElemsF endOff fuel rest3
            else if c3 == ']' then .ok rest3
            else .error k

/-- Modelled from the spec: array elements after a `,` (a value is required). -/
def parseElemsF (endOff : Nat) : Nat → List (Nat × Char) →
    Except Nat (List (Nat × Char))
  | 0, cs => .error (headOff endOff cs)
  | fuel + 1, cs =>
    match parseValueF endOff fuel cs with
    | .error o => .error o
    | .ok afterVal =>
      match skipWs afterVal with
      | [] => .error endOff
      | (k, c3) :: rest3 =>
        if c3 == ',' then parseElemsF endOff fuel rest3
        else if c3 == ']' then .ok rest3
        else .error k

end

/-- Modelled from the spec: the byte offset of the canonical first error of a
JSON document, or `none` when the document is valid. -/
def serdeFirstError (content : List Char) : Option Nat :=
  let endOff := utf8Len content
  match parseValueF endOff (content.length + 1) (charIndices content) with
  | .error o => some o
  | .ok rest =>
    match skipWs rest with
    | [] => none
    | (i, _) :: _ => some i

/-- Modelled from the spec: the (human) message of the ground-truth decoder.
Kept constant; no collected lexical/structural error ever carries it. -/
def serdeMessage : String := "JSON parse error"

end SerdeJson

/-! ## `src/parser-wasm/src/multi_validation.rs` -/

namespace MultiValidation

def MAX_MULTI_ERRORS : Nat := 10
def BYTE_LIMIT : Nat := 1000000

/-- `DetailedError` (multi_validation.rs lines 9-16). -/
structure DetailedError where
  message : String
  code : Option String
  line : Nat
  column : Nat
  span : Span
deriving DecidableEq, Repr

/-- `MultiValidationResult` (multi_validation.rs lines 18-23). -/
structure MultiValidationResult where
  valid : Bool
  summary : Option DetailedError
  errors : List DetailedError
deriving DecidableEq, Repr

/-- `MultiValidationResult::success` (lines 26-32). -/
def MultiValidationResult.success : MultiValidationResult := ⟨true, none, []⟩

/-- `MultiValidationResult::invalid` (lines 34-48): push the summary when
`errors` is empty, insert it at index 0 when no collected error shares its
span and message. -/
def MultiValidationResult.invalid (summary : DetailedError) (errors : List DetailedError) :
    MultiValidationResult :=
  let errors2 :=
    if errors.isEmpty then errors ++ [summary]
    else if !(errors.any (fun e => e.span == summary.span && e.message == summary.message)) then
      summary :: errors
    else errors
  ⟨false, some summary, errors2⟩

/-- `MultiValidationResult::with_limit` (lines 50-55). -/
def MultiValidationResult.with_limit (r : MultiValidationResult) (max_errors : Nat) :
    MultiValidationResult :=
  if max_errors < r.errors.length then { r with errors := r.errors.take max_errors } else r

/-- `LineIndex` (multi_validation.rs lines 620-651). -/
structure LineIndex where
  offsets : List Nat
  len : Nat
deriving Repr

/-- `LineIndex::new`: offset 0 plus one entry after every newline. -/
def LineIndex.new (content : List Char) : LineIndex :=
  ⟨0 :: ((charIndices content).filter (fun p => p.2 == '\n')).map (fun p => p.1 + charSize p.2),
   utf8Len content⟩

/-- `LineIndex::line_col` (lines 640-650): `binary_search` on the sorted,
distinct offsets yields the greatest index whose offset is at most `clamped`
(offset 0 is always present), computed here by a linear count. -/
def LineIndex.line_col (li : LineIndex) (offset : Nat) : Nat × Nat :=
  let clamped := min offset li.len
  let idx := (li.offsets.takeWhile (fun o => decide (o ≤ clamped))).length - 1
  (idx + 1, clamped - li.offsets.getD idx 0 + 1)

/-- The string-scan arm of `infer_json_span` (lines 572-591), over bytes. -/
def ijsStringScan : List Byte → Nat → Bool → Nat
  | [], i, _ => i
  | b :: r, i, esc =>
    if b == 0x5C && !esc then ijsStringScan r (i + 1) true
    else if b == 0x22 && !esc then i + 1
    else ijsStringScan r (i + 1) false

/-- The number-scan arm of `infer_json_span` (lines 592-602). -/
def ijsNumScan : List Byte → Nat → Nat
  | [], i => i
  | b :: r, i => if JsonLexer.isNumTailByte b then ijsNumScan r (i + 1) else i

/-- The default arm of `infer_json_span` (lines 604-613): stop at the first
byte that, cast to a char, is whitespace. -/
def ijsOtherScan : List Byte → Nat → Nat
  | [], i => i
  | b :: r, i => if rustIsWhitespace (Char.ofNat b) then i else ijsOtherScan r (i + 1)

/-- `infer_json_span` (multi_validation.rs lines 564-618). -/
def infer_json_span (content : List Char) (start : Nat) : Span :=
  let len := utf8Len content
  if len ≤ start then ⟨len, len⟩
  else
    match dropBytesChars content start with
    | [] => ⟨start, start⟩
    | ch :: _ =>
      if ch == '"' then
        ⟨start, ijsStringScan ((asBytes content).drop (start + charSize ch)) (start + charSize ch) false⟩
      else if ch == '-' || ch.isDigit then
        ⟨start, ijsNumScan ((asBytes content).drop (start + charSize ch)) (start + charSize ch)⟩
      else
        ⟨start, ijsOtherScan ((asBytes content).drop (start + charSize ch)) (start + charSize ch)⟩

/-- `ObjectState` (multi_validation.rs lines 678-684). -/
inductive ObjectState where
  | expectKeyOrEnd
  | expectColon (key_span : Span)
  | expectValue
  | expectCommaOrEnd
deriving DecidableEq, Repr

/-- `ObjectContext` (lines 658-670). -/
structure ObjectContext where
  state : ObjectState
  comma_guard : Bool
deriving DecidableEq, Repr

/-- `ArrayContext` (lines 672-676). -/
structure ArrayContext where
  expect_value : Bool
  comma_guard : Bool
  has_value : Bool
deriving DecidableEq, Repr

/-- `Context` (lines 653-656); the stack is stored head-first (head = top of
the source `Vec`). -/
inductive Context where
  | object (o : ObjectContext)
  | array (a : ArrayContext)
deriving DecidableEq, Repr

def missing_colon_error (span : Span) (index : LineIndex) : DetailedError :=
  let lc := index.line_col span.start
  ⟨"Missing ':' after object key", some "json.missing_colon", lc.1, lc.2, span⟩

def missing_comma_error (span : Span) (index : LineIndex) : DetailedError :=
  let lc := index.line_col span.start
  ⟨"Missing ',' between items", some "json.missing_comma", lc.1, lc.2, span⟩

def trailing_comma_error (span : Span) (index : LineIndex) : DetailedError :=
  let lc := index.line_col span.start
  ⟨"Trailing ',' before closing delimiter", some "json.trailing_comma", lc.1, lc.2, span⟩

def mismatched_error (span : Span) (index : LineIndex) (code : String) : DetailedError :=
  let lc := index.line_col span.start
  ⟨"Mismatched closing delimiter", some code, lc.1, lc.2, span⟩

def simple_error (span : Span) (index : LineIndex) (code : String) (message : String) :
    DetailedError :=
  let lc := index.line_col span.start
  ⟨message, some code, lc.1, lc.2, span⟩

/-- `note_value_consumed` (multi_validation.rs lines 493-507). -/
def note_value_consumed : List Context → List Context
  | .object _ :: t => .object ⟨.expectCommaOrEnd, false⟩ :: t
  | .array _ :: t => .array ⟨false, false, true⟩ :: t
  | [] => []

/-- The main token switch of `collect_structural_errors` (lines 331-466).
Returns whether the token was consumed (`false` models the source's
`continue` that re-processes the same token), the new stack, and errors. -/
def cseStep (index : LineIndex) (token : JsonLexer.Token) (stack : List Context)
    (errs : List DetailedError) : Bool × List Context × List DetailedError :=
  match token.kind with
  | .lBrace =>
    (true, .object ⟨.expectKeyOrEnd, false⟩ :: note_value_consumed stack, errs)
  | .rBrace =>
    let errs2 := match stack with
      | .object obj :: _ =>
        if (match obj.state with | .expectKeyOrEnd => true | _ => false) && obj.comma_guard
        then errs ++ [trailing_comma_error token.span index] else errs
      | _ => errs
    match stack with
    | .object _ :: t => (true, note_value_consumed t, errs2)
    | _ :: t => (true, t, errs2 ++ [mismatched_error token.span index "json.mismatched_brace"])
    | [] => (true, [], errs2 ++ [mismatched_error token.span index "json.mismatched_brace"])
  | .lBrack =>
    (true, .array ⟨true, false, false⟩ :: note_value_consumed stack, errs)
  | .rBrack =>
    let errs2 := match stack with
      | .array arr :: _ =>
        if arr.expect_value && arr.has_value
        then errs ++ [trailing_comma_error token.span index] else errs
      | _ => errs
    match stack with
    | .array _ :: t => (true, note_value_consumed t, errs2)
    | _ :: t => (true, t, errs2 ++ [mismatched_error token.span index "json.mismatched_bracket"])
    | [] => (true, [], errs2 ++ [mismatched_error token.span index "json.mismatched_bracket"])
  | .stringLit =>
    match stack with
    | .object obj :: t =>
      match obj.state with
      | .expectKeyOrEnd =>
        (true, .object ⟨.expectColon token.span, false⟩ :: t, errs)
      | .expectColon key_span =>
        (false, .object ⟨.expectValue, obj.comma_guard⟩ :: t,
          errs ++ [missing_colon_error key_span index])
      | _ => (true, note_value_consumed (.object obj :: t), errs)
    | _ => (true, note_value_consumed stack, errs)
  | .numberLit => (true, note_value_consumed stack, errs)
  | .litTrue => (true, note_value_consumed stack, errs)
  | .litFalse => (true, note_value_consumed stack, errs)
  | .litNull => (true, note_value_consumed stack, errs)
  | .colon =>
    match stack with
    | .object obj :: t =>
      match obj.state with
      | .expectColon _ => (true, .object ⟨.expectValue, obj.comma_guard⟩ :: t, errs)
      | _ => (true, .object obj :: t,
          errs ++ [simple_error token.span index "json.unexpected_colon" "Unexpected ':'"])
    | _ => (true, stack,
        errs ++ [simple_error token.span index "json.unexpected_colon" "Unexpected ':'"])
  | .comma =>
    match stack with
    | .object obj :: t =>
      match obj.state with
      | .expectCommaOrEnd => (true, .object ⟨.expectKeyOrEnd, true⟩ :: t, errs)
      | _ => (true, .object obj :: t,
          errs ++ [simple_error token.span index "json.unexpected_comma" "Unexpected ','"])
    | .array arr :: t =>
      if arr.expect_value then
        (true, .array arr :: t,
          errs ++ [simple_error token.span index "json.unexpected_comma" "Unexpected ','"])
      else (true, .array ⟨true, true, arr.has_value⟩ :: t, errs)
    | [] => (true, [],
        errs ++ [simple_error token.span index "json.unexpected_comma" "Unexpected ','"])

/-- One iteration of the `collect_structural_errors` loop (lines 308-467):
the array/object missing-comma pre-checks (which re-process the same token,
modelled by returning `token :: rest` unchanged) followed by the token
switch.  Returns the remaining tokens, the stack and the errors. -/
def cseIter (index : LineIndex) (token : JsonLexer.Token) (rest : List JsonLexer.Token)
    (stack : List Context) (errs : List DetailedError) :
    List JsonLexer.Token × List Context × List DetailedError :=
  match stack with
  | .array arr :: stTail =>
    if !arr.expect_value && !(token.kind == .comma || token.kind == .rBrack) then
      (token :: rest, .array ⟨true, false, arr.has_value⟩ :: stTail,
        errs ++ [missing_comma_error token.span index])
    else
      match cseStep index token (.array arr :: stTail) errs with
      | (adv, stack2, errs2) => (if adv then rest else token :: rest, stack2, errs2)
  | .object obj :: stTail =>
    if (match obj.state with | .expectCommaOrEnd => true | _ => false) &&
        !(token.kind == .comma || token.kind == .rBrace) then
      (token :: rest, .object ⟨.expectKeyOrEnd, false⟩ :: stTail,
        errs ++ [missing_comma_error token.span index])
    else
      match cseStep index token (.object obj :: stTail) errs with
      | (adv, stack2, errs2) => (if adv then rest else token :: rest, stack2, errs2)
  | [] =>
    match cseStep index token [] errs with
    | (adv, stack2, errs2) => (if adv then rest else token :: rest, stack2, errs2)

/-- The main loop of `collect_structural_errors` (lines 304-467), fueled:
the loop guard (`i < tokens.len() && errors.len() < max_errors`) driving
`cseIter`.  Returns the errors and the final context stack; each iteration
either consumes a token or pushes an error, so
`tokens.length + max_errors + 1` fuel suffices. -/
def cseF (index : LineIndex) (max_errors : Nat) :
    Nat → List JsonLexer.Token → List Context → List DetailedError →
    Option (List DetailedError × List Context)
  | 0, _, _, _ => none
  | fuel + 1, ts, stack, errs =>
    if max_errors ≤ errs.length then some (errs, stack)
    else
      match ts with
      | [] => some (errs, stack)
      | token :: rest =>
        match cseIter index token rest stack errs with
        | (ts2, stack2, errs2) => cseF index max_errors fuel ts2 stack2 errs2

/-- The unclosed-context pass of `collect_structural_errors` (lines 469-488):
one `json.unclosed_object` / `json.unclosed_array` per open context,
innermost first, anchored at end of buffer, budget-checked per entry. -/
def unclosedGo (index : LineIndex) (content_len max_errors : Nat) :
    List Context → List DetailedError → List DetailedError
  | [], errs => errs
  | ctx :: rest, errs =>
    if max_errors ≤ errs.length then errs
    else
      let span : Span := ⟨content_len - 1, content_len⟩
      let lc := index.line_col span.start
      let e := match ctx with
        | .object _ =>
          DetailedError.mk "Unclosed '\x7b'" (some "json.unclosed_object") lc.1 lc.2 span
        | .array _ =>
          DetailedError.mk "Unclosed '['" (some "json.unclosed_array") lc.1 lc.2 span
      unclosedGo index content_len max_errors rest (errs ++ [e])

/-- `collect_structural_errors` (multi_validation.rs lines 298-491). -/
def collect_structural_errors (content : List Char) (tokens : List JsonLexer.Token)
    (index : LineIndex) (max_errors : Nat) : List DetailedError :=
  match cseF index max_errors (tokens.length + max_errors + 1) tokens [] [] with
  | none => []
  | some (errs, stack) => unclosedGo index (utf8Len content) max_errors stack errs

/-- `classify_xml_code` (multi_validation.rs lines 248-259). -/
def classify_xml_code (msg : String) : String :=
  let lower := msg.data.map asciiToLower
  if containsSub lower "quote".data then "xml.unterminated_quote"
  else if containsSub lower "mismatch".data then "xml.mismatched_tag"
  else if containsSub lower "unexpected".data then "xml.unexpected_token"
  else "xml.parse_error"

/-- `scan_until` (multi_validation.rs lines 287-296). -/
def scanUntilGo (needle totalLen : Nat) : List Byte → Nat → Nat
  | [], _ => totalLen
  | b :: r, i => if b == needle || b == 0x0A then i + 1 else scanUntilGo needle totalLen r (i + 1)

def scan_until (bytes : List Byte) (start : Nat) (needle : Byte) : Nat :=
  scanUntilGo needle bytes.length (bytes.drop start) start

/-- `infer_xml_span` (multi_validation.rs lines 273-285). -/
def infer_xml_span (content : List Char) (start : Nat) (msg : String) : Span :=
  let bytes := asBytes content
  let clamped_start := min start bytes.length
  let lower := msg.data.map asciiToLower
  let stop :=
    if containsSub lower "quote".data then scan_until bytes clamped_start 0x22
    else if containsSub lower "unexpected".data then min (clamped_start + 1) bytes.length
    else scan_until bytes clamped_start 0x3E
  ⟨clamped_start, stop⟩

/-- `find_next_tag_start` (multi_validation.rs lines 261-271). -/
def fntsGo : List Byte → Nat → Option Nat
  | [], _ => none
  | b :: r, i => if b == 0x3C then some i else fntsGo r (i + 1)

def find_next_tag_start (content : List Char) (fromOff : Nat) : Option Nat :=
  let bytes := asBytes content
  fntsGo (bytes.drop (min fromOff bytes.length)) (min fromOff bytes.length)

/-- Modelled from the spec: the message of an `xmlparser::Error` (constant in
this model; the source only inspects it for substrings and displays it). -/
def xmlErrMessage : String := "invalid XML"

/-- `build_xml_error_at` (multi_validation.rs lines 229-246), for the
modelled error whose message is `xmlErrMessage`. -/
def build_xml_error_at (content : List Char) (index : LineIndex) (start : Nat) :
    DetailedError :=
  let message := xmlErrMessage
  let span := infer_xml_span content start message
  let lc := index.line_col span.start
  ⟨message, some (classify_xml_code message), lc.1, lc.2, span⟩

/-- The loop of `collect_xml_errors` (multi_validation.rs lines 180-215),
fueled; the modelled `XmlError` is its relative byte offset, whose
`err.pos()` row/column are `compute_line_col_from_offset` of the suffix.
Every iteration pushes an error, so `budget + 1` fuel suffices. -/
def collectXmlGo (content : List Char) (index : LineIndex) (budget : Nat) :
    Nat → Nat → Option Nat → List DetailedError → List DetailedError
  | 0, _, _, errs => errs
  | fuel + 1, cursor, current_error, errs =>
    if cursor < (asBytes content).length ∧ errs.length < budget then
      let suffix := dropBytesChars content cursor
      let errOpt : Option Nat := match current_error with
        | some e => some e
        | none => (Xml.xmlTokenize suffix).2
      match errOpt with
      | none => errs
      | some relErrOff =>
        let pos := compute_line_col_from_offset suffix relErrOff
        let rel_offset := compute_offset_from_line_col suffix pos.1 pos.2
        let abs_offset := cursor + rel_offset
        let detailed := build_xml_error_at content index abs_offset
        let cursor2 := (find_next_tag_start content detailed.span.stop).getD
          (asBytes content).length
        let errs2 := errs ++ [detailed]
        if budget ≤ errs2.length then errs2
        else collectXmlGo content index budget fuel cursor2 none errs2
    else errs

/-- `collect_xml_errors` (multi_validation.rs lines 171-218). -/
def collect_xml_errors (content : List Char) (first_error : Nat) (max_errors : Nat) :
    List DetailedError :=
  let budget := min (max max_errors 1) MAX_MULTI_ERRORS
  collectXmlGo content (LineIndex.new content) budget (budget + 1) 0 (some first_error) []

/-- `basic_xml_result` (multi_validation.rs lines 159-169);
`build_xml_error` recomputes the start offset from the error's row/column. -/
def basic_xml_result (content : List Char) : MultiValidationResult :=
  match (Xml.xmlTokenize content).2 with
  | none => .success
  | some errOff =>
    let index := LineIndex.new content
    let pos := compute_line_col_from_offset content errOff
    let start := compute_offset_from_line_col content pos.1 pos.2
    let detailed := build_xml_error_at content index start
    .invalid detailed [detailed]

/-- `validate_xml_multi` (multi_validation.rs lines 116-133). -/
def validate_xml_multi (content : List Char) (max_errors : Nat) : MultiValidationResult :=
  if BYTE_LIMIT < utf8Len content then basic_xml_result content
  else
    match (Xml.xmlTokenize content).2 with
    | none => .success
    | some errOff =>
      match collect_xml_errors content errOff max_errors with
      | [] => .success
      | e :: restErrs => .invalid e (e :: restErrs)

/-- `basic_json_result` (multi_validation.rs lines 135-157). -/
def basic_json_result (content : List Char) : MultiValidationResult :=
  match SerdeJson.serdeFirstError content with
  | none => .success
  | some o =>
    let errLc := compute_line_col_from_offset content o
    let start := compute_offset_from_line_col content (max errLc.1 1) (max errLc.2 1)
    let span := infer_json_span content start
    let line_index := LineIndex.new content
    let lc := line_index.line_col span.start
    .invalid ⟨SerdeJson.serdeMessage, none, lc.1, lc.2, span⟩ []

/-- The lexical-error push loop of `validate_json_multi` (lines 85-97). -/
def pushLexErrs (index : LineIndex) (budget : Nat) :
    List JsonLexer.LexError → List DetailedError → List DetailedError
  | [], errs => errs
  | le :: rest, errs =>
    let lc := index.line_col le.span.start
    let errs2 := errs ++ [⟨le.message, some le.code, lc.1, lc.2, le.span⟩]
    if budget ≤ errs2.length then errs2 else pushLexErrs index budget rest errs2

/-- The structural-error push loop of `validate_json_multi` (lines 99-109). -/
def pushStructural (budget : Nat) :
    List DetailedError → List DetailedError → List DetailedError
  | [], errs => errs
  | e :: rest, errs =>
    let errs2 := errs ++ [e]
    if budget ≤ errs2.length then errs2 else pushStructural budget rest errs2

/-- `validate_json_multi` (multi_validation.rs lines 58-114); the serde error
line/column are modelled by `compute_line_col_from_offset` at the
ground-truth error offset. -/
def validate_json_multi (content : List Char) (max_errors : Nat) : MultiValidationResult :=
  if BYTE_LIMIT < utf8Len content then basic_json_result content
  else
    match SerdeJson.serdeFirstError content with
    | none => .success
    | some o =>
      let line_index := LineIndex.new content
      let errLc := compute_line_col_from_offset content o
      let start := compute_offset_from_line_col content (max errLc.1 1) (max errLc.2 1)
      let span := infer_json_span content start
      let lc := line_index.line_col span.start
      let summary : DetailedError := ⟨SerdeJson.serdeMessage, none, lc.1, lc.2, span⟩
      let budget := min (max max_errors 1) MAX_MULTI_ERRORS
      let lx := JsonLexer.lex_lenient (asBytes content) budget
      let errs1 := pushLexErrs line_index budget lx.2 []
      let errs2 :=
        if errs1.length < budget then
          pushStructural budget
            (collect_structural_errors content lx.1 line_index (budget - errs1.length)) errs1
        else errs1
      .invalid summary errs2

end MultiValidation

/-! ## The WASM entry points of `src/parser-wasm/src/lib.rs` -/

namespace Lib

open MultiValidation

/-- `invalid_summary_result` (lib.rs lines 420-426). -/
def invalid_summary_result (summary : DetailedError) : MultiValidationResult :=
  ⟨false, some summary, [summary]⟩

/-- `env_multi_result` (lib.rs lines 392-407). -/
def env_multi_result (content : List Char) : MultiValidationResult :=
  match EnvParser.validate_with_pos content with
  | .ok _ => .success
  | .error e =>
    let start := compute_offset_from_line_col content e.line e.column
    invalid_summary_result ⟨e.msg, none, e.line, e.column, ⟨start, start⟩⟩

/-- `unsupported_multi_result` (lib.rs lines 409-418). -/
def unsupported_multi_result (file_type : List Char) : MultiValidationResult :=
  invalid_summary_result
    ⟨"Unsupported file type: " ++ String.mk file_type, none, 1, 1, ⟨0, 0⟩⟩

/-- `validate_multi` (lib.rs lines 277-287): lower-case the file type, clamp
the requested maximum (default 3) to `1..=MAX_MULTI_ERRORS`, dispatch, and
truncate the errors to the cap. -/
def validate_multi (file_type content : List Char) (max_errors : Option Nat) :
    MultiValidationResult :=
  let ty := file_type.map asciiToLower
  let cap := min (max (max_errors.getD 3) 1) MAX_MULTI_ERRORS
  let result :=
    if ty == "json".data then validate_json_multi content cap
    else if ty == "xml".data || ty == "config".data then validate_xml_multi content cap
    else if ty == "env".data then env_multi_result content
    else unsupported_multi_result ty
  result.with_limit cap

end Lib

/-! ## Per-format dispatch (the shape of `update_value` in lib.rs) -/

/-- The supported byte-preserving formats. -/
inductive FileType where
  | json
  | env
  | xml
deriving DecidableEq, Repr

/-- `find_value_span` dispatched per format, as `update_value` (lib.rs lines
66-113) does; ENV operates on the content bytes and compares keys bytewise. -/
def findValueSpan : FileType → List Char → List (List Char) → Option Span
  | .json, content, path => JsonParser.find_value_span content path
  | .env, content, path => EnvParser.find_value_span content path
  | .xml, content, path => XmlParser.find_value_span content path







end Konficurator

-- scratch sanity checks (removed later)
open Konficurator JsonLexer in
example :
    lex (asBytes ("[1, true]".data)) =
      .ok [⟨.lBrack, ⟨0, 1⟩⟩, ⟨.numberLit, ⟨1, 2⟩⟩, ⟨.comma, ⟨2, 3⟩⟩,
           ⟨.litTrue, ⟨4, 8⟩⟩, ⟨.rBrack, ⟨8, 9⟩⟩] := by rfl

open Konficurator JsonLexer in
example :
    (lex_lenient (asBytes ("\"ab".data)) 3).2 =
      [⟨"json.unterminated_string", "Unterminated string literal", ⟨0, 3⟩⟩] := by rfl

open Konficurator JsonParser in
example :
    find_value_span ("\x7b \"name\": \"Toni\", \"age\": 42 \x7d".data) ["name".data] =
      some ⟨10, 16⟩ := by decide

open Konficurator JsonParser in
example :
    find_value_span ("\x7b \"name\": \"Toni\", \"age\": 42 \x7d".data) ["age".data] =
      some ⟨25, 27⟩ := by decide

-- the nested/array test case of tests.rs (json_nested_path_and_array)
open Konficurator JsonParser in
example :
    find_value_span ("\x7b\"profile\": \x7b\"skills\": [\"Rust\",\"C#\",\"TS\"]\x7d\x7d".data)
      ["profile".data, "skills".data, "1".data] = none := by decide

open Konficurator EnvParser in
example :
    find_value_span "API_KEY=\"abc 123\"  # inline comment".data
      ["API_KEY".data] = some ⟨8, 17⟩ := by decide

open Konficurator EnvParser in
example :
    validate_with_pos "FOO=1\nBAR=2\nFOO=3\n".data =
      .error ⟨"duplicate key 'FOO'", 3, 1⟩ := by rfl

open Konficurator EnvParser in
example :
    ∃ e, validate_with_pos "FOO 123\nBAR=ok\n".data = .error e ∧
      e.msg = "missing '=' separator" ∧ e.line = 1 := ⟨_, by rfl, by rfl, by rfl⟩

open Konficurator XmlParser in
example :
    find_value_span ("<connection host=\"127.0.0.1\" port=\"8080\"/>".data)
      ["connection".data, "@host".data] = some ⟨18, 27⟩ := by decide

open Konficurator XmlParser in
example :
    find_value_span ("<settings><host>localhost</host></settings>".data)
      ["settings".data, "host".data] = some ⟨16, 25⟩ := by decide

open Konficurator SerdeJson in
example : serdeFirstError ("\x7b\"a\": 1, \"b\": [true, null]\x7d".data) = none := by rfl

open Konficurator SerdeJson in
example : serdeFirstError ("\x7b\"a\": \"x".data) = some 8 := by rfl

open Konficurator SerdeJson in
example : serdeFirstError ("[1 2]".data) = some 3 := by rfl

open Konficurator SerdeJson in
example : serdeFirstError ("\x7b\"a\" 1\x7d".data) = some 5 := by rfl

/-! # Theorems -/

/-! ## General splice lemmas -/

namespace Konficurator

/-- Splicing a span's own bytes back is the identity whenever the span is
well-formed (`start ≤ stop`). -/
theorem replace_slice_identity (content : List Byte) (s : Span) (h1 : s.start ≤ s.stop) :
    replace_value content s (sliceBytes content s) = content := by
  unfold replace_value sliceBytes
  have h2 : content.take s.start = (content.take s.stop).take s.start := by
    rw [List.take_take, Nat.min_eq_left h1]
  calc content.take s.start ++ (content.take s.stop).drop s.start ++ content.drop s.stop
      = (content.take s.stop).take s.start ++ (content.take s.stop).drop s.start ++
          content.drop s.stop := by rw [← h2]
    _ = content.take s.stop ++ content.drop s.stop := by rw [List.take_append_drop]
    _ = content := List.take_append_drop _ _

/-- `with_limit` bounds the error list by its argument. -/
theorem withLimit_errors_le (r : MultiValidation.MultiValidationResult) (m : Nat) :
    (r.with_limit m).errors.length ≤ m := by
  unfold MultiValidation.MultiValidationResult.with_limit
  split
  next h => simp [List.length_take]
  next h => simp only [Nat.not_lt] at h; simpa using h

/-- `validate_multi` truncates to the clamped cap. -/
theorem validate_multi_errors_le_cap (ft content : List Char) (mo : Option Nat) :
    (Lib.validate_multi ft content mo).errors.length ≤
      min (max (mo.getD 3) 1) MultiValidation.MAX_MULTI_ERRORS := by
  unfold Lib.validate_multi
  exact withLimit_errors_le _ _

end Konficurator

/-! ## Claim theorems (C2, C7, C3) -/

open Konficurator

/-- C2: for the JSON document `{"profile": {"skills": ["Rust","C#","TS"]}}`
and the path `["profile","skills","1"]`, the claim (and the repository's own
test `json_nested_path_and_array`) expects the span of `"C#"` (bytes 31..35);
the code's `find_value_span` instead fails with `Path not found`, because
`paths_match` ignores array indices and `waiting_for_value` is not cleared
when a `{` opens a nested object.  This theorem evaluates the code at the
failing input: the lookup returns no span although the four bytes `"C#"` sit
at 31..35. -/
theorem c2_nested_array_path_eval :
    JsonParser.find_value_span ("\x7b\"profile\": \x7b\"skills\": [\"Rust\",\"C#\",\"TS\"]\x7d\x7d".data)
      ["profile".data, "skills".data, "1".data] = none ∧
    sliceBytes (asBytes ("\x7b\"profile\": \x7b\"skills\": [\"Rust\",\"C#\",\"TS\"]\x7d\x7d".data))
      ⟨31, 35⟩ = asBytes ("\"C#\"".data) := by
  constructor
  · decide
  · decide

/-- C7: for `<connection host="127.0.0.1" port="8080"/>` and path
`["connection","@host"]`, `find_value_span` (over the spec-modelled
`xmlparser` event stream, whose attribute value spans include the quote
bytes) returns the span 18..27, whose text is exactly `127.0.0.1` with the
quotes excluded. -/
theorem c7_xml_attribute_span :
    XmlParser.find_value_span ("<connection host=\"127.0.0.1\" port=\"8080\"/>".data)
      ["connection".data, "@host".data] = some ⟨18, 27⟩ ∧
    sliceBytes (asBytes ("<connection host=\"127.0.0.1\" port=\"8080\"/>".data))
      ⟨18, 27⟩ = asBytes ("127.0.0.1".data) := by
  constructor
  · decide
  · decide

/-- C3: for every format string, every content and every requested maximum
`k` in `1..=10`, `validate_multi(format, content, k)` returns at most `k`
errors. -/
theorem c3_error_budget (ft content : List Char) (k : Nat) (h1 : 1 ≤ k) (h10 : k ≤ 10) :
    (Lib.validate_multi ft content (some k)).errors.length ≤ k := by
  have h := validate_multi_errors_le_cap ft content (some k)
  simp only [Option.getD, MultiValidation.MAX_MULTI_ERRORS] at h
  omega

/-- Witness for C3 at a concrete input. -/
theorem c3_error_budget_witness :
    (1 ≤ 3 ∧ 3 ≤ 10) ∧
      (Lib.validate_multi "json".data ("[1 2]".data) (some 3)).errors.length ≤ 3 :=
  ⟨by decide, c3_error_budget "json".data ("[1 2]".data) 3 (by decide) (by decide)⟩

/-! ## C4: `valid == errors.is_empty()` -/

namespace Konficurator

open MultiValidation

theorem inv_success :
    MultiValidationResult.success.valid = MultiValidationResult.success.errors.isEmpty := rfl

theorem inv_invalid (s : DetailedError) (errs : List DetailedError) :
    (MultiValidationResult.invalid s errs).valid =
      (MultiValidationResult.invalid s errs).errors.isEmpty := by
  unfold MultiValidationResult.invalid
  dsimp only
  split
  next h => simp
  next h =>
    split
    · simp
    · simpa using h

theorem inv_invalid_summary (s : DetailedError) :
    (Lib.invalid_summary_result s).valid = (Lib.invalid_summary_result s).errors.isEmpty := rfl

theorem inv_with_limit (r : MultiValidationResult) (m : Nat) (h1 : 1 ≤ m)
    (hr : r.valid = r.errors.isEmpty) :
    (r.with_limit m).valid = (r.with_limit m).errors.isEmpty := by
  unfold MultiValidationResult.with_limit
  split
  next h =>
    have hne : r.errors.isEmpty = false := by
      cases herr : r.errors with
      | nil => rw [herr] at h; simp at h
      | cons a t => simp [herr]
    have htk : (r.errors.take m).isEmpty = false := by
      have hlen : 0 < (r.errors.take m).length := by
        rw [List.length_take]
        omega
      cases ht : r.errors.take m with
      | nil => rw [ht] at hlen; simp at hlen
      | cons a t => simp
    show r.valid = (r.errors.take m).isEmpty
    rw [htk, hr, hne]
  next h => exact hr

end Konficurator

namespace Konficurator

open MultiValidation

theorem inv_basic_json (content : List Char) :
    (basic_json_result content).valid = (basic_json_result content).errors.isEmpty := by
  unfold basic_json_result
  cases SerdeJson.serdeFirstError content with
  | none => exact inv_success
  | some o => exact inv_invalid _ _

theorem inv_validate_json (content : List Char) (k : Nat) :
    (validate_json_multi content k).valid = (validate_json_multi content k).errors.isEmpty := by
  unfold validate_json_multi
  split
  · exact inv_basic_json content
  · cases SerdeJson.serdeFirstError content with
    | none => exact inv_success
    | some o => exact inv_invalid _ _

theorem inv_basic_xml (content : List Char) :
    (basic_xml_result content).valid = (basic_xml_result content).errors.isEmpty := by
  unfold basic_xml_result
  cases (Xml.xmlTokenize content).2 with
  | none => exact inv_success
  | some o => exact inv_invalid _ _

theorem inv_validate_xml (content : List Char) (k : Nat) :
    (validate_xml_multi content k).valid = (validate_xml_multi content k).errors.isEmpty := by
  unfold validate_xml_multi
  split
  · exact inv_basic_xml content
  · rcases htok : (Xml.xmlTokenize content).2 with _ | o
    · simp only [htok]
      exact inv_success
    · simp only [htok]
      rcases hcol : collect_xml_errors content o k with _ | ⟨e, restErrs⟩
      · simp only [hcol]
        exact inv_success
      · simp only [hcol]
        exact inv_invalid _ _

theorem inv_env_multi (content : List Char) :
    (Lib.env_multi_result content).valid = (Lib.env_multi_result content).errors.isEmpty := by
  unfold Lib.env_multi_result
  cases EnvParser.validate_with_pos content with
  | ok u => exact inv_success
  | error e => exact inv_invalid_summary _

theorem inv_unsupported (ty : List Char) :
    (Lib.unsupported_multi_result ty).valid =
      (Lib.unsupported_multi_result ty).errors.isEmpty :=
  inv_invalid_summary _

end Konficurator

/-- C4: for every `MultiValidationResult` returned by `validate_multi` (any
format, any content, any `max_errors`), the `valid` flag is true exactly when
the `errors` list is empty: every branch produces `success`,
`invalid` (whose error list is never empty) or `invalid_summary_result`, and
the final truncation to the cap (always at least 1) keeps a nonempty list
nonempty. -/
theorem c4_valid_iff_errors_empty (ft content : List Char) (mo : Option Nat) :
    (Lib.validate_multi ft content mo).valid =
      (Lib.validate_multi ft content mo).errors.isEmpty := by
  unfold Lib.validate_multi
  apply inv_with_limit
  · have h1 : 1 ≤ max (mo.getD 3) 1 := Nat.le_max_right _ _
    have h2 : (1 : Nat) ≤ MultiValidation.MAX_MULTI_ERRORS := by decide
    omega
  · split
    · exact inv_validate_json _ _
    · split
      · exact inv_validate_xml _ _
      · split
        · exact inv_env_multi _
        · exact inv_unsupported _

/-! ## C8: termination of the lenient passes -/

namespace Konficurator

theorem scanJsonString_rest_le (l : List Byte) (i : Nat) (esc : Bool) :
    (JsonLexer.scanJsonString l i esc).2.2.length ≤ l.length := by
  induction l generalizing i esc with
  | nil => simp [JsonLexer.scanJsonString]
  | cons b rest ih =>
    unfold JsonLexer.scanJsonString
    split
    · exact Nat.le_succ_of_le (ih _ _)
    · split
      · simp
      · split
        · simp
        · exact Nat.le_succ_of_le (ih _ _)

theorem scanToQuoteOrNl_rest_le (l : List Byte) (e : Nat) :
    (JsonLexer.scanToQuoteOrNl l e).2.length ≤ l.length := by
  induction l generalizing e with
  | nil => simp [JsonLexer.scanToQuoteOrNl]
  | cons b rest ih =>
    unfold JsonLexer.scanToQuoteOrNl
    split
    · simp
    · split
      · simp
      · exact Nat.le_succ_of_le (ih _)

theorem scanJsonNumber_rest_le (l : List Byte) (i : Nat) :
    (JsonLexer.scanJsonNumber l i).2.length ≤ l.length := by
  induction l generalizing i with
  | nil => simp [JsonLexer.scanJsonNumber]
  | cons b rest ih =>
    unfold JsonLexer.scanJsonNumber
    split
    · exact Nat.le_succ_of_le (ih _)
    · simp

/-- `lexCheck` continues with exactly the state it was given. -/
theorem lexCheck_cont {budget a : Nat} {l : List Byte} {t : List JsonLexer.Token}
    {e : List JsonLexer.LexError} {a2 : Nat} {l2 : List Byte}
    {t2 : List JsonLexer.Token} {e2 : List JsonLexer.LexError}
    (h : JsonLexer.lexCheck budget a l t e = .cont a2 l2 t2 e2) : l2 = l := by
  unfold JsonLexer.lexCheck at h
  split at h
  · cases h
  · cases h
    rfl

/-- A recognised literal consumes 4 or 5 bytes. -/
theorem litKind_len {b : Byte} {rest : List Byte} {kn : JsonLexer.Kind × Nat}
    (h : JsonLexer.litKind b rest = some kn) : kn.2 = 4 ∨ kn.2 = 5 := by
  unfold JsonLexer.litKind at h
  repeat' split at h
  all_goals cases h
  all_goals simp

/-- A continuing string-branch iteration never grows the unconsumed suffix. -/
theorem lexStringBranch_cont_length (budget i : Nat) (rest : List Byte)
    (toks : List JsonLexer.Token) (errs : List JsonLexer.LexError)
    (i2 : Nat) (l2 : List Byte) (toks2 : List JsonLexer.Token)
    (errs2 : List JsonLexer.LexError)
    (h : JsonLexer.lexStringBranch budget i rest toks errs = .cont i2 l2 toks2 errs2) :
    l2.length ≤ rest.length := by
  have H1 : (JsonLexer.scanJsonString rest (i + 1) false).2.2.length ≤ rest.length :=
    scanJsonString_rest_le rest (i + 1) false
  have H2 : (JsonLexer.scanToQuoteOrNl (JsonLexer.scanJsonString rest (i + 1) false).2.2
      (JsonLexer.scanJsonString rest (i + 1) false).1).2.length ≤
      (JsonLexer.scanJsonString rest (i + 1) false).2.2.length :=
    scanToQuoteOrNl_rest_le _ _
  unfold JsonLexer.lexStringBranch at h
  repeat' split at h
  all_goals obtain rfl := lexCheck_cont h
  all_goals omega

/-- A continuing `lex_lenient` iteration never grows the unconsumed suffix. -/
theorem lexLenientStep_cont_length (budget i : Nat) (b : Byte) (rest : List Byte)
    (toks : List JsonLexer.Token) (errs : List JsonLexer.LexError)
    (i2 : Nat) (l2 : List Byte) (toks2 : List JsonLexer.Token)
    (errs2 : List JsonLexer.LexError)
    (h : JsonLexer.lexLenientStep budget i b rest toks errs = .cont i2 l2 toks2 errs2) :
    l2.length ≤ rest.length := by
  have H3 : (JsonLexer.scanJsonNumber rest (i + 1)).2.length ≤ rest.length :=
    scanJsonNumber_rest_le rest (i + 1)
  have H4 : ∀ n, 1 ≤ n → ((b :: rest).drop n).length ≤ rest.length := by
    intro n hn
    simp only [List.length_drop, List.length_cons]
    omega
  unfold JsonLexer.lexLenientStep at h
  repeat' split at h
  all_goals first
    | exact lexStringBranch_cont_length budget i rest toks errs i2 l2 toks2 errs2 h
    | (obtain rfl := lexCheck_cont h
       first
        | omega
        | (rename_i kn heqlit
           have hkn := litKind_len heqlit
           exact le_trans (H4 kn.2 (by omega)) (le_refl _)))

/-- Every iteration of `lex_lenient` consumes at least one byte, so
`l.length + 1` fuel always produces a result. -/
theorem lexLenientF_isSome (fuel : Nat) :
    ∀ (i : Nat) (l : List Byte) (budget : Nat) (toks : List JsonLexer.Token)
      (errs : List JsonLexer.LexError), l.length < fuel →
      (JsonLexer.lexLenientF fuel i l budget toks errs).isSome = true := by
  induction fuel with
  | zero => intro i l budget toks errs h; omega
  | succ fuel ih =>
    intro i l budget toks errs h
    cases l with
    | nil => rfl
    | cons b rest =>
      have hlen : rest.length + 1 < fuel + 1 := by simpa using h
      show (match JsonLexer.lexLenientStep budget i b rest toks errs with
        | .done r => some r
        | .cont i2 l2 toks2 errs2 =>
          JsonLexer.lexLenientF fuel i2 l2 budget toks2 errs2).isSome = true
      rcases hstep : JsonLexer.lexLenientStep budget i b rest toks errs with r | ⟨i2, l2, toks2, errs2⟩
      · rfl
      · apply ih
        have := lexLenientStep_cont_length budget i b rest toks errs i2 l2 toks2 errs2 hstep
        omega

end Konficurator

namespace Konficurator

open MultiValidation

/-- `cseStep` never drops collected errors. -/
theorem cseStep_errs_le (index : LineIndex) (token : JsonLexer.Token)
    (stack : List Context) (errs : List DetailedError) :
    errs.length ≤ (cseStep index token stack errs).2.2.length := by
  obtain ⟨kind, span⟩ := token
  cases kind <;>
    (simp only [cseStep]
     repeat' split) <;>
    simp

/-- A non-advancing `cseStep` (the missing-colon `continue`) pushes exactly
one error. -/
theorem cseStep_noadv (index : LineIndex) (token : JsonLexer.Token)
    (stack : List Context) (errs : List DetailedError)
    (h : (cseStep index token stack errs).1 = false) :
    (cseStep index token stack errs).2.2.length = errs.length + 1 := by
  obtain ⟨kind, span⟩ := token
  cases kind <;>
    rcases stack with _ | ⟨co | ca, t⟩ <;>
    (try obtain ⟨st, cg⟩ := co) <;>
    (try cases st) <;>
    (simp only [cseStep] at h ⊢
     repeat' split at h) <;>
    simp_all [apply_ite]

/-- Each `collect_structural_errors` iteration either consumes a token or
re-processes it while pushing exactly one error. -/
theorem cseIter_progress (index : LineIndex) (token : JsonLexer.Token)
    (rest : List JsonLexer.Token) (stack : List Context) (errs : List DetailedError)
    (ts2 : List JsonLexer.Token) (stack2 : List Context) (errs2 : List DetailedError)
    (h : cseIter index token rest stack errs = (ts2, stack2, errs2)) :
    (ts2 = rest ∧ errs.length ≤ errs2.length) ∨
      (ts2 = token :: rest ∧ errs2.length = errs.length + 1) := by
  have hstep : ∀ (st : List Context),
      (match cseStep index token st errs with
        | (adv, s3, e3) => ((if adv then rest else token :: rest, s3, e3) :
            List JsonLexer.Token × List Context × List DetailedError)) = (ts2, stack2, errs2) →
      (ts2 = rest ∧ errs.length ≤ errs2.length) ∨
        (ts2 = token :: rest ∧ errs2.length = errs.length + 1) := by
    intro st hm
    rcases hs : cseStep index token st errs with ⟨adv, s3, e3⟩
    rw [hs] at hm
    cases adv
    · right
      have h1 := cseStep_noadv index token st errs (by rw [hs])
      rw [hs] at h1
      cases hm
      exact ⟨rfl, h1⟩
    · left
      have h1 := cseStep_errs_le index token st errs
      rw [hs] at h1
      cases hm
      exact ⟨rfl, h1⟩
  rcases stack with _ | ⟨co | ca, stTail⟩
  · unfold cseIter at h
    exact hstep [] h
  · replace h : (if ((match co.state with
          | ObjectState.expectCommaOrEnd => true
          | _ => false) &&
          !(token.kind == JsonLexer.Kind.comma || token.kind == JsonLexer.Kind.rBrace)) = true
        then ((token :: rest, Context.object ⟨.expectKeyOrEnd, false⟩ :: stTail,
          errs ++ [missing_comma_error token.span index]) :
            List JsonLexer.Token × List Context × List DetailedError)
        else match cseStep index token (.object co :: stTail) errs with
          | (adv, s3, e3) => (if adv then rest else token :: rest, s3, e3)) =
        (ts2, stack2, errs2) := h
    split at h
    · cases h
      right
      exact ⟨rfl, by simp⟩
    · exact hstep _ h
  · replace h : (if (!ca.expect_value &&
          !(token.kind == JsonLexer.Kind.comma || token.kind == JsonLexer.Kind.rBrack)) = true
        then ((token :: rest, Context.array ⟨true, false, ca.has_value⟩ :: stTail,
          errs ++ [missing_comma_error token.span index]) :
            List JsonLexer.Token × List Context × List DetailedError)
        else match cseStep index token (.array ca :: stTail) errs with
          | (adv, s3, e3) => (if adv then rest else token :: rest, s3, e3)) =
        (ts2, stack2, errs2) := h
    split at h
    · cases h
      right
      exact ⟨rfl, by simp⟩
    · exact hstep _ h

/-- Each `collect_structural_errors` iteration consumes a token or pushes an
error, so `ts.length + (max_errors - errs.length) + 1` fuel always returns. -/
theorem cseF_isSome (index : LineIndex) (max_errors : Nat) (fuel : Nat) :
    ∀ (ts : List JsonLexer.Token) (stack : List Context) (errs : List DetailedError),
      ts.length + (max_errors - errs.length) < fuel →
      (cseF index max_errors fuel ts stack errs).isSome = true := by
  induction fuel with
  | zero => intro ts stack errs h; omega
  | succ fuel ih =>
    intro ts stack errs h
    unfold cseF
    by_cases hbudget : max_errors ≤ errs.length
    · simp [hbudget]
    · rw [if_neg hbudget]
      cases ts with
      | nil => rfl
      | cons token rest =>
        show (match cseIter index token rest stack errs with
          | (ts2, stack2, errs2) =>
            cseF index max_errors fuel ts2 stack2 errs2).isSome = true
        rcases hiter : cseIter index token rest stack errs with ⟨ts2, stack2, errs2⟩
        show (cseF index max_errors fuel ts2 stack2 errs2).isSome = true
        rcases cseIter_progress index token rest stack errs ts2 stack2 errs2 hiter with
          ⟨rfl, hle⟩ | ⟨rfl, hone⟩
        · apply ih
          simp only [List.length_cons] at h
          omega
        · apply ih
          simp only [List.length_cons] at h ⊢
          omega

end Konficurator

/-- C8: every lenient validation pass terminates on every input and budget.
The lenient JSON lexer and the structural diagnostic walk are transcribed as
fueled loops (`lexLenientF`, `cseF`); every iteration either consumes at
least one byte/token or pushes an error against the budget, so the explicit
fuel `buf.length + 1` (resp. `tokens.length + max_errors + 1`) always
suffices: the loop reaches a result (`some`), never the fuel-exhaustion
case, and the public wrappers `lex_lenient` / `collect_structural_errors`
always return that result. -/
theorem c8_lenient_termination :
    (∀ (buf : List Byte) (maxErrors : Nat),
      ∃ r, JsonLexer.lexLenientF (buf.length + 1) 0 buf
          (if maxErrors == 0 then usizeMax else maxErrors) [] [] = some r ∧
        JsonLexer.lex_lenient buf maxErrors = r) ∧
    (∀ (content : List Char) (tokens : List JsonLexer.Token)
        (index : MultiValidation.LineIndex) (max_errors : Nat),
      ∃ errs stack,
        MultiValidation.cseF index max_errors (tokens.length + max_errors + 1)
          tokens [] [] = some (errs, stack) ∧
        MultiValidation.collect_structural_errors content tokens index max_errors =
          MultiValidation.unclosedGo index (utf8Len content) max_errors stack errs) := by
  constructor
  · intro buf maxErrors
    have h := lexLenientF_isSome (buf.length + 1) 0 buf
      (if maxErrors == 0 then usizeMax else maxErrors) [] [] (by omega)
    obtain ⟨r, hr⟩ := Option.isSome_iff_exists.mp h
    refine ⟨r, hr, ?_⟩
    simp only [JsonLexer.lex_lenient, hr]
  · intro content tokens index max_errors
    have hlen : tokens.length +
        (max_errors - ([] : List MultiValidation.DetailedError).length) <
        tokens.length + max_errors + 1 := by
      simp
    have h := cseF_isSome index max_errors
      (tokens.length + max_errors + 1) tokens [] [] hlen
    obtain ⟨⟨errs, stack⟩, hr⟩ := Option.isSome_iff_exists.mp h
    refine ⟨errs, stack, hr, ?_⟩
    unfold MultiValidation.collect_structural_errors
    rw [hr]

/-- The strict lexer's early exits are all errors: a `done` step never
carries an `ok`. -/
theorem lexStep_done_error (i : Nat) (b : Byte) (rest : List Byte)
    (toks : List JsonLexer.Token) (r : Except String (List JsonLexer.Token))
    (h : JsonLexer.lexStep i b rest toks = .done r) :
    ∃ s, r = .error s := by
  unfold JsonLexer.lexStep at h
  repeat' split at h
  all_goals cases h
  all_goals exact ⟨_, rfl⟩

/-- On a continuing strict iteration with no errors collected yet, the
lenient iteration performs exactly the same transition, followed by the
bottom-of-loop budget check. -/
theorem lexStep_to_lenient (budget i : Nat) (b : Byte) (rest : List Byte)
    (toks : List JsonLexer.Token) (i2 : Nat) (l2 : List Byte)
    (toks2 : List JsonLexer.Token)
    (h : JsonLexer.lexStep i b rest toks = .cont i2 l2 toks2) :
    JsonLexer.lexLenientStep budget i b rest toks [] =
      JsonLexer.lexCheck budget i2 l2 toks2 [] := by
  unfold JsonLexer.lexStep at h
  unfold JsonLexer.lexLenientStep JsonLexer.lexStringBranch
  repeat' split at h
  all_goals cases h
  all_goals simp_all

/-- Driver refinement: wherever the strict driver returns `ok`, the lenient
driver started from the same state with no errors and a positive budget
returns the same tokens and no errors. -/
theorem lexF_to_lenientF (fuel : Nat) :
    ∀ (i : Nat) (l : List Byte) (toks toksOut : List JsonLexer.Token) (budget : Nat),
      JsonLexer.lexF fuel i l toks = some (.ok toksOut) → 1 ≤ budget →
      JsonLexer.lexLenientF fuel i l budget toks [] = some (toksOut, []) := by
  induction fuel with
  | zero =>
    intro i l toks toksOut budget h hb
    cases h
  | succ n ih =>
    intro i l toks toksOut budget h hb
    cases l with
    | nil =>
      replace h : some (Except.ok toks) = some (Except.ok toksOut) := h
      injection h with h1
      injection h1 with h2
      subst h2
      rfl
    | cons b rest =>
      replace h : (match JsonLexer.lexStep i b rest toks with
        | .done r => some r
        | .cont i2 l2 toks2 => JsonLexer.lexF n i2 l2 toks2) = some (.ok toksOut) := h
      rcases hstep : JsonLexer.lexStep i b rest toks with r | ⟨i2, l2, toks2⟩
      · rw [hstep] at h
        obtain ⟨s, rfl⟩ := lexStep_done_error i b rest toks r hstep
        simp at h
      · rw [hstep] at h
        have hlen := lexStep_to_lenient budget i b rest toks i2 l2 toks2 hstep
        have hred : JsonLexer.lexLenientF (n + 1) i (b :: rest) budget toks [] =
            JsonLexer.lexLenientF n i2 l2 budget toks2 [] := by
          show (match JsonLexer.lexLenientStep budget i b rest toks [] with
            | .done r => some r
            | .cont i3 l3 t3 e3 => JsonLexer.lexLenientF n i3 l3 budget t3 e3) =
            JsonLexer.lexLenientF n i2 l2 budget toks2 []
          rw [hlen]
          have hchk : JsonLexer.lexCheck budget i2 l2 toks2 [] = .cont i2 l2 toks2 [] := by
            unfold JsonLexer.lexCheck
            rw [if_neg (by simp; omega)]
          rw [hchk]
        rw [hred]
        exact ih i2 l2 toks2 toksOut budget h hb

/-- C9: the lenient JSON lexer refines the strict one.  On every buffer on
which strict `lex` succeeds with a token list, `lex_lenient` with any error
budget returns exactly that token list (same kinds and spans, same order)
and an empty error list. -/
theorem c9_lenient_refines_strict (buf : List Byte)
    (toks : List JsonLexer.Token) (maxErrors : Nat)
    (h : JsonLexer.lex buf = .ok toks) :
    JsonLexer.lex_lenient buf maxErrors = (toks, []) := by
  have hF : JsonLexer.lexF (buf.length + 1) 0 buf [] = some (.ok toks) := by
    unfold JsonLexer.lex at h
    rcases hcase : JsonLexer.lexF (buf.length + 1) 0 buf [] with _ | r
    · rw [hcase] at h
      replace h : Except.error "fuel exhausted" = Except.ok toks := h
      cases h
    · rw [hcase] at h
      replace h : r = Except.ok toks := h
      subst h
      rfl
  have hb : 1 ≤ (if maxErrors == 0 then usizeMax else maxErrors) := by
    rcases Nat.eq_zero_or_pos maxErrors with rfl | hpos
    · simp [usizeMax]
    · have hne : (maxErrors == 0) = false := by
        simp
        omega
      simp [hne]
      omega
  have hres := lexF_to_lenientF (buf.length + 1) 0 buf [] toks
    (if maxErrors == 0 then usizeMax else maxErrors) hF hb
  simp only [JsonLexer.lex_lenient, hres]

/-- C9 witness: on the well-formed buffer for the text `\x7b"a":1\x7d`, strict
`lex` succeeds and `lex_lenient` returns the same five tokens, no errors. -/
theorem c9_lenient_refines_strict_witness :
    JsonLexer.lex [0x7B, 0x22, 0x61, 0x22, 0x3A, 0x31, 0x7D] =
      .ok [⟨.lBrace, ⟨0, 1⟩⟩, ⟨.stringLit, ⟨1, 4⟩⟩, ⟨.colon, ⟨4, 5⟩⟩,
        ⟨.numberLit, ⟨5, 6⟩⟩, ⟨.rBrace, ⟨6, 7⟩⟩] ∧
    JsonLexer.lex_lenient [0x7B, 0x22, 0x61, 0x22, 0x3A, 0x31, 0x7D] 3 =
      ([⟨.lBrace, ⟨0, 1⟩⟩, ⟨.stringLit, ⟨1, 4⟩⟩, ⟨.colon, ⟨4, 5⟩⟩,
        ⟨.numberLit, ⟨5, 6⟩⟩, ⟨.rBrace, ⟨6, 7⟩⟩], []) :=
  ⟨by rfl, c9_lenient_refines_strict _ _ 3 (by rfl)⟩

/-- The duplicate scan walks past a duplicate-free prefix, accumulating its
trimmed keys into `seen`. -/
theorem dupScanGo_append (content : List Char) (pre : List EnvParser.EntryRaw) :
    ∀ (seen : List (List Char)) (rest : List EnvParser.EntryRaw),
      (seen ++ pre.map (EnvParser.entryKey content)).Nodup →
      EnvParser.dupScanGo content (pre ++ rest) seen =
        EnvParser.dupScanGo content rest
          (seen ++ pre.map (EnvParser.entryKey content)) := by
  induction pre with
  | nil =>
    intro seen rest h
    simp
  | cons p pre ih =>
    intro seen rest h
    have hnotin : EnvParser.entryKey content p ∉ seen := by
      rw [List.nodup_append] at h
      intro hmem
      exact h.2.2 hmem (List.mem_cons_self _ _)
    have hcont : seen.contains (EnvParser.entryKey content p) = false := by
      simpa using hnotin
    simp only [List.cons_append, List.map_cons, EnvParser.dupScanGo]
    rw [hcont]
    simp only [Bool.false_eq_true, if_false, List.append_eq]
    rw [ih (seen ++ [EnvParser.entryKey content p]) rest (by simpa using h)]
    simp

/-- C6 (amended): the claim's duplicate-key behaviour holds only once the
lexical pass succeeds — a lexical error anywhere in the file preempts the
duplicate scan, so the claim's unconditional "for every ENV document" form
is too strong (see the counterexample theorem).  Whenever `lex_with_pos`
succeeds and the entry list splits as `pre ++ r :: post` where the trimmed
keys of `pre` are pairwise distinct and `r`'s trimmed key already occurred
in `pre`, `validate_with_pos` fails with a duplicate-key error positioned at
the line/column of `r` — the second occurrence — as computed by
`offset_to_line_col` from the start of `r`'s key span. -/
theorem c6_env_duplicate_key_position (content : List Char)
    (pre post : List EnvParser.EntryRaw) (r : EnvParser.EntryRaw)
    (h1 : EnvParser.lex_with_pos (asBytes content) = .ok (pre ++ r :: post))
    (h2 : (pre.map (EnvParser.entryKey content)).Nodup)
    (h3 : EnvParser.entryKey content r ∈
      pre.map (EnvParser.entryKey content)) :
    EnvParser.validate_with_pos content =
      .error ⟨"duplicate key '" ++
          String.mk (EnvParser.entryKey content r) ++ "'",
        (EnvParser.offset_to_line_col content r.key_span.start).1,
        (EnvParser.offset_to_line_col content r.key_span.start).2⟩ := by
  have hcont : (([] : List (List Char)) ++
      pre.map (EnvParser.entryKey content)).contains
      (EnvParser.entryKey content r) = true := by
    simpa using h3
  have hmain : EnvParser.dupScanGo content (pre ++ r :: post) [] =
      .error ⟨"duplicate key '" ++
          String.mk (EnvParser.entryKey content r) ++ "'",
        (EnvParser.offset_to_line_col content r.key_span.start).1,
        (EnvParser.offset_to_line_col content r.key_span.start).2⟩ := by
    rw [dupScanGo_append content pre [] (r :: post) (by simpa using h2)]
    simp only [EnvParser.dupScanGo]
    rw [hcont]
    simp
  unfold EnvParser.validate_with_pos
  rw [h1]
  exact hmain

/-- C6 witness: for `FOO=1\nBAR=2\nFOO=3\n` the duplicate `FOO` is reported
at line 3, column 1 — the second occurrence's key position. -/
theorem c6_env_duplicate_key_position_witness :
    EnvParser.validate_with_pos "FOO=1\nBAR=2\nFOO=3\n".data =
      .error ⟨"duplicate key 'FOO'", 3, 1⟩ := by
  have h := c6_env_duplicate_key_position "FOO=1\nBAR=2\nFOO=3\n".data
    [⟨⟨0, 3⟩, ⟨4, 5⟩, none⟩, ⟨⟨6, 9⟩, ⟨10, 11⟩, none⟩] []
    ⟨⟨12, 15⟩, ⟨16, 17⟩, none⟩ (by rfl) (by decide) (by decide)
  rw [h]
  rfl

/-- C6 counterexample to the unconditional claim: in
`FOO=1\nFOO=2\nBAR\n` the trimmed key `FOO` occurs on the two non-comment
lines 1 and 2 (their lexed entries have equal trimmed keys), yet
`validate_with_pos` does not report a duplicate-key error: the lexical error
`missing '=' separator` on line 3 preempts the duplicate scan. -/
theorem c6_env_duplicate_key_counterexample :
    EnvParser.iter_lines (asBytes "FOO=1\nFOO=2\nBAR\n".data) =
      [asBytes "FOO=1\n".data, asBytes "FOO=2\n".data, asBytes "BAR\n".data] ∧
    EnvParser.lexLine (asBytes "FOO=1\n".data) 0 1 =
      .ok (some ⟨⟨0, 3⟩, ⟨4, 5⟩, none⟩) ∧
    EnvParser.lexLine (asBytes "FOO=2\n".data) 6 2 =
      .ok (some ⟨⟨6, 9⟩, ⟨10, 11⟩, none⟩) ∧
    EnvParser.entryKey "FOO=1\nFOO=2\nBAR\n".data ⟨⟨0, 3⟩, ⟨4, 5⟩, none⟩ =
      EnvParser.entryKey "FOO=1\nFOO=2\nBAR\n".data ⟨⟨6, 9⟩, ⟨10, 11⟩, none⟩ ∧
    EnvParser.validate_with_pos "FOO=1\nFOO=2\nBAR\n".data =
      .error ⟨"missing '=' separator", 3, 4⟩ := by
  refine ⟨by decide, by rfl, by rfl, by decide, ?_⟩
  rfl

/-! ## C5: the summary and the error list -/

namespace Konficurator

open MultiValidation

/-- `with_limit` only truncates the error list: `valid` is unchanged. -/
theorem with_limit_valid (r : MultiValidationResult) (m : Nat) :
    (r.with_limit m).valid = r.valid := by
  unfold MultiValidationResult.with_limit
  split <;> rfl

/-- `with_limit` only truncates the error list: `summary` is unchanged. -/
theorem with_limit_summary (r : MultiValidationResult) (m : Nat) :
    (r.with_limit m).summary = r.summary := by
  unfold MultiValidationResult.with_limit
  split <;> rfl

/-- `invalid` records its argument as the summary. -/
theorem invalid_summary_eq (s : DetailedError) (errs : List DetailedError) :
    (MultiValidationResult.invalid s errs).summary = some s := rfl

/-- When the collected list already fits under the cap, `with_limit` after
`invalid` keeps an error matching the summary's span and message. -/
theorem invalid_with_limit_witness (s : DetailedError) (errs : List DetailedError)
    (cap : Nat) (hcap : 1 ≤ cap) (hlen : errs.length ≤ cap) :
    ∃ e ∈ ((MultiValidationResult.invalid s errs).with_limit cap).errors,
      e.span = s.span ∧ e.message = s.message := by
  unfold MultiValidationResult.invalid
  dsimp only
  split
  next hemp =>
    have herrs : errs = [] := by simpa using hemp
    subst herrs
    rw [MultiValidationResult.with_limit, if_neg (by simp; omega)]
    exact ⟨s, by simp, rfl, rfl⟩
  next hemp =>
    split
    next hmatch =>
      unfold MultiValidationResult.with_limit
      dsimp only
      split
      next hlt =>
        refine ⟨s, ?_, rfl, rfl⟩
        have : (s :: errs).take cap = s :: errs.take (cap - 1) := by
          cases cap with
          | zero => omega
          | succ c => simp
        rw [this]
        exact List.mem_cons_self _ _
      next hlt => exact ⟨s, List.mem_cons_self _ _, rfl, rfl⟩
    next hmatch =>
      have hany : errs.any (fun e => e.span == s.span && e.message == s.message) = true := by
        simpa using hmatch
      obtain ⟨e, he, hp⟩ := List.any_eq_true.mp hany
      simp only [Bool.and_eq_true, beq_iff_eq] at hp
      rw [MultiValidationResult.with_limit, if_neg (by simp; omega)]
      exact ⟨e, he, hp.1, hp.2⟩

/-- When the summary itself heads the collected list, it survives any
truncation by a positive cap. -/
theorem invalid_head_with_limit_witness (s : DetailedError) (rest : List DetailedError)
    (cap : Nat) (hcap : 1 ≤ cap) :
    ∃ e ∈ ((MultiValidationResult.invalid s (s :: rest)).with_limit cap).errors,
      e.span = s.span ∧ e.message = s.message := by
  unfold MultiValidationResult.invalid
  dsimp only
  rw [if_neg (by simp)]
  rw [if_neg (by simp)]
  unfold MultiValidationResult.with_limit
  dsimp only
  split
  next hlt =>
    refine ⟨s, ?_, rfl, rfl⟩
    have : (s :: rest).take cap = s :: rest.take (cap - 1) := by
      cases cap with
      | zero => omega
      | succ c => simp
    rw [this]
    exact List.mem_cons_self _ _
  next hlt => exact ⟨s, List.mem_cons_self _ _, rfl, rfl⟩

/-- The lexical-error push never exceeds the budget when started below it. -/
theorem pushLexErrs_length_le (index : LineIndex) (budget : Nat) :
    ∀ (lst : List JsonLexer.LexError) (errs : List DetailedError),
      errs.length < budget → (pushLexErrs index budget lst errs).length ≤ budget := by
  intro lst
  induction lst with
  | nil =>
    intro errs h
    exact Nat.le_of_lt h
  | cons le rest ih =>
    intro errs h
    simp only [pushLexErrs]
    split
    next h2 => simp only [List.length_append, List.length_cons, List.length_nil]; omega
    next h2 =>
      apply ih
      simp only [List.length_append, List.length_cons, List.length_nil] at h2 ⊢
      omega

/-- The structural-error push never exceeds the budget when started below
it. -/
theorem pushStructural_length_le (budget : Nat) :
    ∀ (lst errs : List DetailedError),
      errs.length < budget → (pushStructural budget lst errs).length ≤ budget := by
  intro lst
  induction lst with
  | nil =>
    intro errs h
    exact Nat.le_of_lt h
  | cons e rest ih =>
    intro errs h
    simp only [pushStructural]
    split
    next h2 => simp only [List.length_append, List.length_cons, List.length_nil]; omega
    next h2 =>
      apply ih
      simp only [List.length_append, List.length_cons, List.length_nil] at h2 ⊢
      omega

end Konficurator

namespace Konficurator

open MultiValidation

/-- Every JSON validation result is `success` or an `invalid` whose collected
list is bounded by the clamped budget. -/
theorem validate_json_shape (content : List Char) (cap : Nat) :
    validate_json_multi content cap = MultiValidationResult.success ∨
    ∃ s errs, validate_json_multi content cap = MultiValidationResult.invalid s errs ∧
      errs.length ≤ min (max cap 1) MAX_MULTI_ERRORS := by
  have hB : 1 ≤ min (max cap 1) MAX_MULTI_ERRORS := by
    unfold MAX_MULTI_ERRORS
    omega
  unfold validate_json_multi basic_json_result
  split
  · rcases hs : SerdeJson.serdeFirstError content with _ | o
    · simp only [hs]
      first
        | trivial
        | exact Or.inl trivial
    · simp only [hs]
      right
      exact ⟨_, _, rfl, by simp⟩
  · rcases hs : SerdeJson.serdeFirstError content with _ | o
    · simp only [hs]
      first
        | trivial
        | exact Or.inl trivial
    · simp only [hs]
      right
      refine ⟨_, _, rfl, ?_⟩
      split
      next h2 => exact pushStructural_length_le _ _ _ h2
      next h2 => exact pushLexErrs_length_le _ _ _ _ (by simpa using hB)

/-- Every XML validation result is `success` or an `invalid` whose summary
heads the collected list. -/
theorem validate_xml_shape (content : List Char) (cap : Nat) :
    validate_xml_multi content cap = MultiValidationResult.success ∨
    ∃ s errs, validate_xml_multi content cap = MultiValidationResult.invalid s (s :: errs) := by
  unfold validate_xml_multi basic_xml_result
  split
  · rcases hs : (Xml.xmlTokenize content).2 with _ | o
    · simp only [hs]
      first
        | trivial
        | exact Or.inl trivial
    · simp only [hs]
      right
      exact ⟨_, [], rfl⟩
  · rcases hs : (Xml.xmlTokenize content).2 with _ | o
    · simp only [hs]
      first
        | trivial
        | exact Or.inl trivial
    · simp only [hs]
      rcases hcol : collect_xml_errors content o cap with _ | ⟨e, restErrs⟩
      · simp only [hcol]
        first
          | trivial
          | exact Or.inl trivial
      · simp only [hcol]
        right
        exact ⟨e, restErrs, rfl⟩

/-- Every ENV validation result is `success` or an `invalid_summary_result`. -/
theorem env_multi_shape (content : List Char) :
    Lib.env_multi_result content = MultiValidationResult.success ∨
    ∃ s, Lib.env_multi_result content = Lib.invalid_summary_result s := by
  unfold Lib.env_multi_result
  cases EnvParser.validate_with_pos content with
  | ok u => left; rfl
  | error e => right; exact ⟨_, rfl⟩

/-- An `invalid_summary_result`'s summary stays in the error list under any
positive cap. -/
theorem invalid_summary_with_limit_full (s : DetailedError) (cap : Nat) (hcap : 1 ≤ cap) :
    ∃ t, ((Lib.invalid_summary_result s).with_limit cap).summary = some t ∧
      ∃ e ∈ ((Lib.invalid_summary_result s).with_limit cap).errors,
        e.span = t.span ∧ e.message = t.message := by
  refine ⟨s, by rw [with_limit_summary]; rfl, ?_⟩
  unfold Lib.invalid_summary_result MultiValidationResult.with_limit
  dsimp only
  rw [if_neg (by simp; omega)]
  exact ⟨s, by simp, rfl, rfl⟩

/-- The dispatch of `validate_multi`: whenever the capped result is invalid,
its summary is present and an error with the summary's span and message
remains in the truncated list. -/
theorem dispatch_summary_witness (ty content : List Char) (cap : Nat) (hcap : 1 ≤ cap)
    (h : ((if ty == "json".data then validate_json_multi content cap
        else if ty == "xml".data || ty == "config".data then validate_xml_multi content cap
        else if ty == "env".data then Lib.env_multi_result content
        else Lib.unsupported_multi_result ty).with_limit cap).valid = false) :
    ∃ s, ((if ty == "json".data then validate_json_multi content cap
        else if ty == "xml".data || ty == "config".data then validate_xml_multi content cap
        else if ty == "env".data then Lib.env_multi_result content
        else Lib.unsupported_multi_result ty).with_limit cap).summary = some s ∧
      ∃ e ∈ ((if ty == "json".data then validate_json_multi content cap
        else if ty == "xml".data || ty == "config".data then validate_xml_multi content cap
        else if ty == "env".data then Lib.env_multi_result content
        else Lib.unsupported_multi_result ty).with_limit cap).errors,
        e.span = s.span ∧ e.message = s.message := by
  by_cases h1 : (ty == "json".data) = true
  · rw [if_pos h1] at h ⊢
    rcases validate_json_shape content cap with hS | ⟨s, errs, hE, hlen⟩
    · rw [hS, with_limit_valid] at h
      simp [MultiValidationResult.success] at h
    · rw [hE]
      have hle : errs.length ≤ cap := by
        refine le_trans hlen ?_
        unfold MAX_MULTI_ERRORS at hlen ⊢
        omega
      exact ⟨s, by rw [with_limit_summary, invalid_summary_eq],
        invalid_with_limit_witness s errs cap hcap hle⟩
  · rw [if_neg h1] at h ⊢
    by_cases h2 : (ty == "xml".data || ty == "config".data) = true
    · rw [if_pos h2] at h ⊢
      rcases validate_xml_shape content cap with hS | ⟨s, errs, hE⟩
      · rw [hS, with_limit_valid] at h
        simp [MultiValidationResult.success] at h
      · rw [hE]
        exact ⟨s, by rw [with_limit_summary, invalid_summary_eq],
          invalid_head_with_limit_witness s errs cap hcap⟩
    · rw [if_neg h2] at h ⊢
      by_cases h3 : (ty == "env".data) = true
      · rw [if_pos h3] at h ⊢
        rcases env_multi_shape content with hS | ⟨s, hE⟩
        · rw [hS, with_limit_valid] at h
          simp [MultiValidationResult.success] at h
        · rw [hE]
          exact invalid_summary_with_limit_full s cap hcap
      · rw [if_neg h3] at h ⊢
        exact invalid_summary_with_limit_full _ cap hcap

end Konficurator

/-- C5 (amended): whenever `validate_multi` returns an invalid result, the
summary is present and an error with the summary's span and message appears
in the returned (budget-truncated) error list.  The claim's further
requirement that the summary be the first-encountered (lowest byte offset)
error does not hold: for JSON the summary is built from the ground-truth
parse error, while the lenient lexer can record an error at a strictly lower
byte offset (see the counterexample theorem). -/
theorem c5_summary_in_errors (ft content : List Char) (mo : Option Nat)
    (h : (Lib.validate_multi ft content mo).valid = false) :
    ∃ s, (Lib.validate_multi ft content mo).summary = some s ∧
      ∃ e ∈ (Lib.validate_multi ft content mo).errors,
        e.span = s.span ∧ e.message = s.message := by
  have hcap : 1 ≤ min (max (mo.getD 3) 1) MultiValidation.MAX_MULTI_ERRORS := by
    unfold MultiValidation.MAX_MULTI_ERRORS
    omega
  exact dispatch_summary_witness (ft.map asciiToLower) content
    (min (max (mo.getD 3) 1) MultiValidation.MAX_MULTI_ERRORS) hcap h

/-- C5 witness at a concrete invalid input. -/
theorem c5_summary_in_errors_witness :
    (Lib.validate_multi "txt".data "x".data none).valid = false ∧
    ∃ s, (Lib.validate_multi "txt".data "x".data none).summary = some s ∧
      ∃ e ∈ (Lib.validate_multi "txt".data "x".data none).errors,
        e.span = s.span ∧ e.message = s.message :=
  ⟨by decide, c5_summary_in_errors "txt".data "x".data none (by decide)⟩

/-- C5 counterexample to "the summary is the lowest-offset error": on the
JSON input `\x7b"a": "x` the summary (built from the ground-truth parse
error at the end of input) has span `8..8`, while the returned error list
contains the lenient lexer's unterminated-string error starting at byte
offset 6 — strictly below the summary's offset. -/
theorem c5_summary_not_lowest_offset :
    (Lib.validate_multi "json".data "\x7b\"a\": \"x".data (some 3)).summary.map
        (fun s => s.span.start) = some 8 ∧
    ((Lib.validate_multi "json".data "\x7b\"a\": \"x".data (some 3)).errors.map
        (fun e => e.span.start)).contains 6 = true ∧
    6 < 8 := by
  refine ⟨?_, ?_, by decide⟩
  · decide
  · decide

/-! ## C1 / C10: span bounds of the three `find_value_span`s -/

namespace Konficurator

/-- Every char occupies at least one byte. -/
theorem charSize_pos (c : Char) : 1 ≤ charSize c := by
  unfold charSize
  repeat' split
  all_goals omega

/-- The encoding length of a char is its `charSize`. -/
theorem encodeChar_length (c : Char) : (encodeChar c).length = charSize c := by
  simp only [encodeChar, charSize]
  by_cases h1 : c.toNat < 128
  · rw [if_pos h1, if_pos h1]
    rfl
  · rw [if_neg h1, if_neg h1]
    by_cases h2 : c.toNat < 2048
    · rw [if_pos h2, if_pos h2]
      rfl
    · rw [if_neg h2, if_neg h2]
      by_cases h3 : c.toNat < 65536
      · rw [if_pos h3, if_pos h3]
        rfl
      · rw [if_neg h3, if_neg h3]
        rfl

/-- The byte count of a string is its UTF-8 length. -/
theorem asBytes_length : ∀ (l : List Char), (asBytes l).length = utf8Len l
  | [] => rfl
  | c :: cs => by
    show (encodeChar c ++ asBytes cs).length = charSize c + utf8Len cs
    rw [List.length_append, encodeChar_length, asBytes_length cs]

/-- Offsets of `char_indices` from `off` are at least `off`. -/
theorem charIndicesAux_ge : ∀ (l : List Char) (off : Nat) (p : Nat × Char),
    p ∈ charIndicesAux off l → off ≤ p.1
  | [], _, _, h => by cases h
  | c :: cs, off, p, h => by
    rcases List.mem_cons.mp h with rfl | h2
    · exact Nat.le_refl _
    · have := charIndicesAux_ge cs (off + charSize c) p h2
      omega

/-- Each indexed char ends within `off + utf8Len l`. -/
theorem charIndicesAux_le : ∀ (l : List Char) (off : Nat) (p : Nat × Char),
    p ∈ charIndicesAux off l → p.1 + charSize p.2 ≤ off + utf8Len l
  | [], _, _, h => by cases h
  | c :: cs, off, p, h => by
    rcases List.mem_cons.mp h with rfl | h2
    · show off + charSize c ≤ off + (charSize c + utf8Len cs)
      omega
    · have := charIndicesAux_le cs (off + charSize c) p h2
      show p.1 + charSize p.2 ≤ off + (charSize c + utf8Len cs)
      omega

/-- `char_indices` offsets are strictly increasing, by a full char size. -/
theorem charIndicesAux_pairwise : ∀ (l : List Char) (off : Nat),
    (charIndicesAux off l).Pairwise (fun a b => a.1 + charSize a.2 ≤ b.1)
  | [], _ => List.Pairwise.nil
  | c :: cs, off => by
    refine List.Pairwise.cons ?_ (charIndicesAux_pairwise cs (off + charSize c))
    intro p hp
    exact charIndicesAux_ge cs (off + charSize c) p hp

/-- Bounds of `charIndices`. -/
theorem charIndices_le (l : List Char) : ∀ p ∈ charIndices l,
    p.1 + charSize p.2 ≤ utf8Len l := by
  intro p hp
  have := charIndicesAux_le l 0 p hp
  omega

theorem charIndices_pairwise (l : List Char) :
    (charIndices l).Pairwise (fun a b => a.1 + charSize a.2 ≤ b.1) :=
  charIndicesAux_pairwise l 0

/-- Dropping `n` bytes leaves at most `utf8Len l - n` bytes (or nothing). -/
theorem dropBytesChars_utf8Len : ∀ (l : List Char) (n : Nat),
    n + utf8Len (dropBytesChars l n) ≤ utf8Len l ∨ utf8Len (dropBytesChars l n) = 0
  | l, 0 => by
    left
    simp [dropBytesChars]
  | [], _ + 1 => by
    right
    rfl
  | c :: rest, b + 1 => by
    have ih := dropBytesChars_utf8Len rest (b + 1 - charSize c)
    have hs := charSize_pos c
    show b + 1 + utf8Len (dropBytesChars rest (b + 1 - charSize c)) ≤
        charSize c + utf8Len rest ∨
      utf8Len (dropBytesChars rest (b + 1 - charSize c)) = 0
    omega

/-- A contiguous indexed run starting at `i` spans `utf8Len` of its chars. -/
theorem offs_utf8_le (N : Nat) : ∀ (rest : List (Nat × Char)) (i : Nat) (c : Char),
    ((i, c) :: rest).Pairwise (fun a b => a.1 + charSize a.2 ≤ b.1) →
    (∀ p ∈ (i, c) :: rest, p.1 + charSize p.2 ≤ N) →
    i + utf8Len (((i, c) :: rest).map Prod.snd) ≤ N := by
  intro rest
  induction rest with
  | nil =>
    intro i c _ hb
    have h0 : i + charSize c ≤ N := hb (i, c) (by simp)
    show i + (charSize c + utf8Len []) ≤ N
    show i + (charSize c + 0) ≤ N
    omega
  | cons q rest ih =>
    intro i c hp hb
    obtain ⟨j, d⟩ := q
    have h1 : i + charSize c ≤ j :=
      List.rel_of_pairwise_cons hp (List.mem_cons_self _ _)
    have h2 := ih j d (List.Pairwise.of_cons hp)
      (fun p hp2 => hb p (List.mem_cons_of_mem _ hp2))
    show i + (charSize c + utf8Len (((j, d) :: rest).map Prod.snd)) ≤ N
    replace h2 : j + utf8Len (((j, d) :: rest).map Prod.snd) ≤ N := h2
    omega

end Konficurator

namespace Konficurator

/-- The string-value scan stays within `[lo, N]`. -/
theorem scanStringValueEnd_bounds (N lo : Nat) :
    ∀ (l : List (Nat × Char)) (e : Nat) (esc : Bool),
      (∀ p ∈ l, p.1 + charSize p.2 ≤ N) → (∀ p ∈ l, lo ≤ p.1 + 1) →
      lo ≤ e → e ≤ N →
      lo ≤ JsonParser.scanStringValueEnd l e esc ∧
        JsonParser.scanStringValueEnd l e esc ≤ N := by
  intro l
  induction l with
  | nil =>
    intro e esc _ _ h1 h2
    exact ⟨h1, h2⟩
  | cons p rest ih =>
    intro e esc hb hlo h1 h2
    obtain ⟨j, c⟩ := p
    have hj : j + charSize c ≤ N := hb (j, c) (by simp)
    have hjc := charSize_pos c
    have hjlo : lo ≤ j + 1 := hlo (j, c) (by simp)
    have hbr : ∀ p ∈ rest, p.1 + charSize p.2 ≤ N :=
      fun p hp => hb p (List.mem_cons_of_mem _ hp)
    have hlor : ∀ p ∈ rest, lo ≤ p.1 + 1 :=
      fun p hp => hlo p (List.mem_cons_of_mem _ hp)
    show lo ≤ JsonParser.scanStringValueEnd ((j, c) :: rest) e esc ∧ _
    unfold JsonParser.scanStringValueEnd
    split
    · exact ih (j + 1) false hbr hlor (by omega) (by omega)
    · split
      · exact ih (j + 1) true hbr hlor (by omega) (by omega)
      · split
        · exact ⟨by omega, by omega⟩
        · exact ih (j + 1) false hbr hlor (by omega) (by omega)

/-- The non-string value scan stays within `[lo, N]`. -/
theorem scanOtherValueEnd_bounds (N lo : Nat) :
    ∀ (l : List (Nat × Char)) (e : Nat),
      (∀ p ∈ l, p.1 + charSize p.2 ≤ N) → (∀ p ∈ l, lo ≤ p.1 + 1) →
      lo ≤ e → e ≤ N →
      lo ≤ JsonParser.scanOtherValueEnd l e ∧ JsonParser.scanOtherValueEnd l e ≤ N := by
  intro l
  induction l with
  | nil =>
    intro e _ _ h1 h2
    exact ⟨h1, h2⟩
  | cons p rest ih =>
    intro e hb hlo h1 h2
    obtain ⟨j, c⟩ := p
    have hj : j + charSize c ≤ N := hb (j, c) (by simp)
    have hjc := charSize_pos c
    have hjlo : lo ≤ j + 1 := hlo (j, c) (by simp)
    unfold JsonParser.scanOtherValueEnd
    split
    · exact ⟨h1, h2⟩
    · exact ih (j + 1) (fun p hp => hb p (List.mem_cons_of_mem _ hp))
        (fun p hp => hlo p (List.mem_cons_of_mem _ hp)) (by omega) (by omega)

/-- `skipValue` returns a suffix (in particular a sublist) of its input. -/
theorem skipValue_sublist : ∀ (l : List (Nat × Char)), List.Sublist (JsonParser.skipValue l) l
  | [] => List.Sublist.refl _
  | (j, c) :: rest => by
    unfold JsonParser.skipValue
    split
    · exact List.Sublist.refl _
    · exact List.Sublist.trans (skipValue_sublist rest) (List.sublist_cons_self _ _)

/-- The only span the in-string arm can find. -/
theorem findStepStr_found (content : List Char) (target : List (List Char))
    (i : Nat) (ch : Char) (rest : List (Nat × Char)) (st : JsonParser.St) (s : Span)
    (h : JsonParser.findStepStr content target i ch rest st = .found s) :
    s = ⟨i - JsonParser.get_string_content_length (JsonParser.charsUpTo content (i + 1)) + 1,
      i + 1⟩ := by
  unfold JsonParser.findStepStr at h
  repeat' split at h
  all_goals cases h
  rfl

/-- The in-string arm always continues on `rest`. -/
theorem findStepStr_cont (content : List Char) (target : List (List Char))
    (i : Nat) (ch : Char) (rest : List (Nat × Char)) (st : JsonParser.St)
    (l2 : List (Nat × Char)) (st2 : JsonParser.St)
    (h : JsonParser.findStepStr content target i ch rest st = .cont l2 st2) :
    l2 = rest := by
  unfold JsonParser.findStepStr at h
  repeat' split at h
  all_goals cases h
  all_goals rfl

/-- The only span the quote arm can find. -/
theorem findStepQuote_found (target : List (List Char)) (i : Nat)
    (rest : List (Nat × Char)) (st : JsonParser.St) (s : Span)
    (h : JsonParser.findStepQuote target i rest st = .found s) :
    s = ⟨i, JsonParser.scanStringValueEnd rest (i + 1) false⟩ := by
  unfold JsonParser.findStepQuote at h
  repeat' split at h
  all_goals cases h
  rfl

/-- The quote arm continues on `rest`. -/
theorem findStepQuote_cont (target : List (List Char)) (i : Nat)
    (rest : List (Nat × Char)) (st : JsonParser.St)
    (l2 : List (Nat × Char)) (st2 : JsonParser.St)
    (h : JsonParser.findStepQuote target i rest st = .cont l2 st2) :
    l2 = rest := by
  unfold JsonParser.findStepQuote at h
  repeat' split at h
  all_goals cases h
  all_goals rfl

/-- The comma arm always continues on `rest`. -/
theorem findStepComma_cont (rest : List (Nat × Char)) (st : JsonParser.St)
    (l2 : List (Nat × Char)) (st2 : JsonParser.St)
    (h : JsonParser.findStepComma rest st = .cont l2 st2) : l2 = rest := by
  simp only [JsonParser.findStepComma] at h
  injection h with h1 h2
  exact h1.symm

/-- The comma arm never finds a span. -/
theorem findStepComma_ne_found (rest : List (Nat × Char)) (st : JsonParser.St) (s : Span)
    (h : JsonParser.findStepComma rest st = .found s) : False := by
  simp only [JsonParser.findStepComma] at h
  cases h

/-- The only span the value arm can find. -/
theorem findStepValue_found (target : List (List Char)) (i : Nat)
    (rest : List (Nat × Char)) (st : JsonParser.St) (s : Span)
    (h : JsonParser.findStepValue target i rest st = .found s) :
    s = ⟨i, JsonParser.scanOtherValueEnd rest (i + 1)⟩ := by
  unfold JsonParser.findStepValue at h
  repeat' split at h
  all_goals cases h
  rfl

/-- The value arm continues on `rest` or its `skipValue` suffix. -/
theorem findStepValue_cont (target : List (List Char)) (i : Nat)
    (rest : List (Nat × Char)) (st : JsonParser.St)
    (l2 : List (Nat × Char)) (st2 : JsonParser.St)
    (h : JsonParser.findStepValue target i rest st = .cont l2 st2) :
    l2 = rest ∨ l2 = JsonParser.skipValue rest := by
  unfold JsonParser.findStepValue at h
  repeat' split at h
  all_goals cases h
  all_goals simp

/-- A `found` step yields a span within the content bounds. -/
theorem findStep_found_bounds (content : List Char) (target : List (List Char))
    (i : Nat) (ch : Char) (rest : List (Nat × Char)) (st : JsonParser.St) (s : Span)
    (hhead : i + charSize ch ≤ utf8Len content)
    (hrest : ∀ p ∈ rest, p.1 + charSize p.2 ≤ utf8Len content)
    (hord : ∀ p ∈ rest, i + charSize ch ≤ p.1)
    (h : JsonParser.findStep content target i ch rest st = .found s) :
    s.start ≤ s.stop ∧ s.stop ≤ utf8Len content := by
  have hcs := charSize_pos ch
  unfold JsonParser.findStep at h
  repeat' split at h
  all_goals (try cases h)
  · obtain rfl := findStepStr_found content target i ch rest st s h
    refine ⟨?_, ?_⟩
    · show i - JsonParser.get_string_content_length (JsonParser.charsUpTo content (i + 1)) +
        1 ≤ i + 1
      omega
    · show i + 1 ≤ utf8Len content
      omega
  · obtain rfl := findStepQuote_found target i rest st s h
    exact scanStringValueEnd_bounds (utf8Len content) i rest (i + 1) false hrest
      (fun p hp => by have := hord p hp; omega) (by omega) (by omega)
  · obtain rfl := findStepValue_found target i rest st s h
    exact scanOtherValueEnd_bounds (utf8Len content) i rest (i + 1) hrest
      (fun p hp => by have := hord p hp; omega) (by omega) (by omega)

/-- A continuing step proceeds on the remaining chars or on their
`skipValue` suffix. -/
theorem findStep_cont_list (content : List Char) (target : List (List Char))
    (i : Nat) (ch : Char) (rest : List (Nat × Char)) (st : JsonParser.St)
    (l2 : List (Nat × Char)) (st2 : JsonParser.St)
    (h : JsonParser.findStep content target i ch rest st = .cont l2 st2) :
    l2 = rest ∨ l2 = JsonParser.skipValue rest := by
  unfold JsonParser.findStep at h
  repeat' split at h
  all_goals (try (cases h; exact Or.inl rfl))
  · exact Or.inl (findStepStr_cont content target i ch rest st l2 st2 h)
  · exact Or.inl (findStepQuote_cont target i rest st l2 st2 h)
  · exact findStepValue_cont target i rest st l2 st2 h

/-- Every span found by the `find_value_span` loop is within the content's
byte bounds. -/
theorem findLoop_bounds (content : List Char) (target : List (List Char)) :
    ∀ (fuel : Nat) (l : List (Nat × Char)) (st : JsonParser.St) (s : Span),
      l.Pairwise (fun a b => a.1 + charSize a.2 ≤ b.1) →
      (∀ p ∈ l, p.1 + charSize p.2 ≤ utf8Len content) →
      JsonParser.findLoop content target fuel l st = some s →
      s.start ≤ s.stop ∧ s.stop ≤ utf8Len content := by
  intro fuel
  induction fuel with
  | zero =>
    intro l st s _ _ h
    cases h
  | succ n ih =>
    intro l st s hp hb h
    cases l with
    | nil => cases h
    | cons q rest =>
      obtain ⟨i, ch⟩ := q
      replace h : (match JsonParser.findStep content target i ch rest st with
        | .found s0 => some s0
        | .cont l2 st2 => JsonParser.findLoop content target n l2 st2) = some s := h
      rcases hstep : JsonParser.findStep content target i ch rest st with s0 | ⟨l2, st2⟩
      · rw [hstep] at h
        injection h with h2
        subst h2
        exact findStep_found_bounds content target i ch rest st _
          (hb (i, ch) (by simp))
          (fun p hp2 => hb p (List.mem_cons_of_mem _ hp2))
          (fun p hp2 => List.rel_of_pairwise_cons hp hp2) hstep
      · rw [hstep] at h
        rcases findStep_cont_list content target i ch rest st l2 st2 hstep with rfl | rfl
        · exact ih _ st2 s (List.Pairwise.of_cons hp)
            (fun p hp2 => hb p (List.mem_cons_of_mem _ hp2)) h
        · have hsub := skipValue_sublist rest
          exact ih _ st2 s
            ((List.Pairwise.of_cons hp).sublist hsub)
            (fun p hp2 => hb p (List.mem_cons_of_mem _ (hsub.subset hp2))) h

/-- JSON `find_value_span` spans are in bounds. -/
theorem json_find_value_span_bounds (content : List Char) (path : List (List Char))
    (s : Span) (h : JsonParser.find_value_span content path = some s) :
    s.start ≤ s.stop ∧ s.stop ≤ (asBytes content).length := by
  unfold JsonParser.find_value_span at h
  split at h
  · cases h
  · rw [asBytes_length]
    exact findLoop_bounds content path _ _ _ _ (charIndices_pairwise content)
      (charIndices_le content) h

end Konficurator

namespace Konficurator

/-- `skip_spaces` never moves backwards. -/
theorem skip_spaces_ge (l : List Byte) (idx : Nat) : idx ≤ EnvParser.skip_spaces l idx := by
  unfold EnvParser.skip_spaces
  omega

/-- `skip_spaces` stays within the line (or where it started). -/
theorem skip_spaces_le (l : List Byte) (idx : Nat) :
    EnvParser.skip_spaces l idx ≤ max idx l.length := by
  unfold EnvParser.skip_spaces
  have h1 : ((l.drop idx).takeWhile EnvParser.is_space).length ≤ (l.drop idx).length :=
    (List.takeWhile_sublist _).length_le
  have h2 : (l.drop idx).length = l.length - idx := List.length_drop _ _
  omega

/-- `stripTrailing` moves backwards but not below `lo`. -/
theorem stripTrailing_bounds (trimmed : List Byte) (lo : Nat) :
    ∀ j, EnvParser.stripTrailing trimmed lo j ≤ j ∧
      (lo ≤ j → lo ≤ EnvParser.stripTrailing trimmed lo j)
  | 0 => by
    constructor
    · exact Nat.le_refl _
    · intro h
      simpa [EnvParser.stripTrailing] using h
  | j + 1 => by
    have ih := stripTrailing_bounds trimmed lo j
    unfold EnvParser.stripTrailing
    split
    next hc =>
      have hc2 : lo ≤ j ∧ EnvParser.is_space (trimmed.getD j 0) = true := by simpa using hc
      exact ⟨Nat.le_succ_of_le ih.1, fun _ => ih.2 hc2.1⟩
    next hc => exact ⟨Nat.le_refl _, fun h => h⟩

/-- The leading whitespace plus the trimmed line fit in the line. -/
theorem trim_ws_length (slice : List Byte) :
    (slice.takeWhile EnvParser.is_space).length + (EnvParser.trim_ws slice).length ≤
      slice.length := by
  unfold EnvParser.trim_ws
  have h1 : (slice.takeWhile EnvParser.is_space).length +
      (slice.dropWhile EnvParser.is_space).length = slice.length := by
    rw [← List.length_append, List.takeWhile_append_dropWhile]
  have h2 : ((slice.dropWhile EnvParser.is_space).reverse.dropWhile
      (fun b => EnvParser.is_space b || b == 0x0A || b == 0x0D)).length ≤
      (slice.dropWhile EnvParser.is_space).reverse.length :=
    (List.dropWhile_sublist _).length_le
  simp only [List.length_reverse] at h2 ⊢
  omega

/-- The lines of `iter_lines` cover at most the buffer. -/
theorem iterLinesF_sum : ∀ (fuel : Nat) (bytes : List Byte),
    ((EnvParser.iterLinesF fuel bytes).map List.length).sum ≤ bytes.length
  | 0, _ => by simp [EnvParser.iterLinesF]
  | _ + 1, [] => by simp [EnvParser.iterLinesF]
  | fuel + 1, b :: rest => by
    have ih := iterLinesF_sum fuel (EnvParser.splitLine (b :: rest)).2
    have h1 : (EnvParser.splitLine (b :: rest)).1.length +
        (EnvParser.splitLine (b :: rest)).2.length = (b :: rest).length := by
      unfold EnvParser.splitLine
      simp only [List.length_take, List.length_drop]
      omega
    show ((EnvParser.splitLine (b :: rest)).1.length ::
      ((EnvParser.iterLinesF fuel (EnvParser.splitLine (b :: rest)).2).map List.length)).sum ≤
      (b :: rest).length
    simp only [List.sum_cons]
    omega

end Konficurator

namespace Konficurator

/-- A found `memchr` index is inside the haystack. -/
theorem memchrB_lt (b : Byte) (l : List Byte) (k : Nat)
    (h : EnvParser.memchrB b l = some k) : k < l.length := by
  simp only [EnvParser.memchrB] at h
  split at h
  · injection h with h2
    omega
  · cases h

/-- Every entry lexed by the value scan has a well-formed value span within
the trimmed line. -/
theorem lexLineValue_span (trimmed : List Byte)
    (offset lead_ws line_no key_start key_end idx2 : Nat) (r : EnvParser.EntryRaw)
    (hidx : idx2 < trimmed.length)
    (h : EnvParser.lexLineValue trimmed offset lead_ws line_no key_start key_end idx2 =
      .ok (some r)) :
    r.value_span.start ≤ r.value_span.stop ∧
      r.value_span.stop ≤ offset + lead_ws + trimmed.length := by
  have hss1 := skip_spaces_ge trimmed (idx2 + 1)
  have hss2 := skip_spaces_le trimmed (idx2 + 1)
  simp only [EnvParser.lexLineValue] at h
  repeat' split at h
  all_goals (try cases h)
  · refine ⟨?_, ?_⟩ <;> (try dsimp) <;> omega
  · (try dsimp)
    rename_i pos heq
    have hm := memchrB_lt 0x23 (trimmed.drop (EnvParser.skip_spaces trimmed (idx2 + 1)))
      pos heq
    have hdl : (trimmed.drop (EnvParser.skip_spaces trimmed (idx2 + 1))).length =
        trimmed.length - EnvParser.skip_spaces trimmed (idx2 + 1) := List.length_drop _ _
    have hst := stripTrailing_bounds trimmed (EnvParser.skip_spaces trimmed (idx2 + 1))
      (EnvParser.skip_spaces trimmed (idx2 + 1) + pos)
    have hst2 := hst.2 (by omega)
    have hst1 := hst.1
    exact ⟨by omega, by omega⟩
  · (try dsimp)
    have hst := stripTrailing_bounds trimmed (EnvParser.skip_spaces trimmed (idx2 + 1))
      trimmed.length
    have hst2 := hst.2 (by omega)
    have hst1 := hst.1
    exact ⟨by omega, by omega⟩

/-- A `get?` hit is inside the list. -/
theorem get?_lt_length (l : List Byte) (n : Nat) (b : Byte)
    (h : l.get? n = some b) : n < l.length := by
  by_contra hc
  rw [List.get?_eq_none.mpr (by omega)] at h
  cases h

/-- The negated separator test implies the `=` byte is present. -/
theorem get?_beq_lt_length (l : List Byte) (n : Nat) (b : Byte)
    (h : ¬((!(l.get? n == some b)) = true)) : n < l.length := by
  have h3 : (l.get? n == some b) = true := by
    cases hx : (l.get? n == some b) <;> simp_all
  exact get?_lt_length l n b (eq_of_beq h3)

/-- Every entry lexed from a line has a well-formed value span within the
line's bytes. -/
theorem lexLine_value_span (slice : List Byte) (offset line_no : Nat)
    (r : EnvParser.EntryRaw)
    (h : EnvParser.lexLine slice offset line_no = .ok (some r)) :
    r.value_span.start ≤ r.value_span.stop ∧
      r.value_span.stop ≤ offset + slice.length := by
  have htw := trim_ws_length slice
  simp only [EnvParser.lexLine] at h
  repeat' split at h
  all_goals (try cases h)
  all_goals (
    rename_i hget
    have hb := lexLineValue_span _ offset _ line_no _ _ _ r
      (get?_beq_lt_length _ _ _ hget) h
    exact ⟨hb.1, by have h2 := hb.2; omega⟩)

end Konficurator

namespace Konficurator

/-- All entries produced by the line fold have well-formed value spans
within the processed bytes. -/
theorem lexLinesGo_spans :
    ∀ (lines : List (List Byte)) (offset line_no : Nat)
      (out res : List EnvParser.EntryRaw),
      (∀ r ∈ out, r.value_span.start ≤ r.value_span.stop ∧ r.value_span.stop ≤ offset) →
      EnvParser.lexLinesGo lines offset line_no out = .ok res →
      ∀ r ∈ res, r.value_span.start ≤ r.value_span.stop ∧
        r.value_span.stop ≤ offset + (lines.map List.length).sum
  | [], offset, line_no, out, res, hout, h, r, hr => by
    replace h : Except.ok out = Except.ok res := h
    injection h with h2
    subst h2
    have := hout r hr
    simp only [List.map_nil, List.sum_nil]
    omega
  | slice :: restLines, offset, line_no, out, res, hout, h, r, hr => by
    replace h : (match EnvParser.lexLine slice offset line_no with
      | .error e => .error e
      | .ok none => EnvParser.lexLinesGo restLines (offset + slice.length) (line_no + 1) out
      | .ok (some entry) =>
        EnvParser.lexLinesGo restLines (offset + slice.length) (line_no + 1)
          (out ++ [entry])) = Except.ok res := h
    have hsum : ((slice :: restLines).map List.length).sum =
        slice.length + (restLines.map List.length).sum := by
      simp
    rcases hline : EnvParser.lexLine slice offset line_no with e | oe
    · rw [hline] at h
      cases h
    · rw [hline] at h
      cases oe with
      | none =>
        have := lexLinesGo_spans restLines (offset + slice.length) (line_no + 1) out res
          (fun r2 hr2 => by have := hout r2 hr2; omega) h r hr
        rw [hsum]
        omega
      | some entry =>
        have hent := lexLine_value_span slice offset line_no entry hline
        have := lexLinesGo_spans restLines (offset + slice.length) (line_no + 1)
          (out ++ [entry]) res
          (fun r2 hr2 => by
            rcases List.mem_append.mp hr2 with h2 | h2
            · have := hout r2 h2
              omega
            · have : r2 = entry := by simpa using h2
              subst this
              omega) h r hr
        rw [hsum]
        omega

/-- Every raw entry from `lex_with_pos` has a well-formed value span within
the buffer. -/
theorem lex_with_pos_spans (buf : List Byte) (raw : List EnvParser.EntryRaw)
    (h : EnvParser.lex_with_pos buf = .ok raw) :
    ∀ r ∈ raw, r.value_span.start ≤ r.value_span.stop ∧
      r.value_span.stop ≤ buf.length := by
  intro r hr
  have hs := lexLinesGo_spans (EnvParser.iter_lines buf) 0 1 [] raw
    (fun r2 hr2 => by cases hr2) h r hr
  have hsum := iterLinesF_sum (buf.length + 1) buf
  replace hsum : ((EnvParser.iter_lines buf).map List.length).sum ≤ buf.length := hsum
  omega

/-- Every parsed entry's value span comes from a raw entry (or the seed). -/
theorem parseEntriesGo_spans (content : List Char) :
    ∀ (raws : List EnvParser.EntryRaw) (seen : List (List Char))
      (out entries : List EnvParser.Entry),
      EnvParser.parseEntriesGo content raws seen out = some entries →
      ∀ e ∈ entries, e ∈ out ∨ ∃ r ∈ raws, e.value_span = r.value_span
  | [], seen, out, entries, h, e, he => by
    replace h : some out = some entries := h
    injection h with h2
    subst h2
    exact Or.inl he
  | r :: raws, seen, out, entries, h, e, he => by
    replace h : (if (seen.contains (EnvParser.entryKey content r)) = true then none
      else EnvParser.parseEntriesGo content raws (seen ++ [EnvParser.entryKey content r])
        (out ++ [⟨EnvParser.entryKey content r, r.value_span⟩])) = some entries := h
    split at h
    · cases h
    · have := parseEntriesGo_spans content raws (seen ++ [EnvParser.entryKey content r])
        (out ++ [⟨EnvParser.entryKey content r, r.value_span⟩]) entries h e he
      rcases this with h2 | ⟨r2, hr2, hsp⟩
      · rcases List.mem_append.mp h2 with h3 | h3
        · exact Or.inl h3
        · have : e = ⟨EnvParser.entryKey content r, r.value_span⟩ := by simpa using h3
          subst this
          exact Or.inr ⟨r, List.mem_cons_self _ _, rfl⟩
      · exact Or.inr ⟨r2, List.mem_cons_of_mem _ hr2, hsp⟩

/-- ENV `find_value_span` spans are in bounds. -/
theorem env_find_value_span_bounds (content : List Char) (path : List (List Char))
    (s : Span) (h : EnvParser.find_value_span content path = some s) :
    s.start ≤ s.stop ∧ s.stop ≤ (asBytes content).length := by
  unfold EnvParser.find_value_span at h
  split at h
  · cases h
  · rcases hp : EnvParser.parse content with _ | entries
    · rw [hp] at h
      cases h
    · rw [hp] at h
      rcases hhd : path.head? with _ | key
      · rw [hhd] at h
        cases h
      · rw [hhd] at h
        replace h : (match List.find? (fun e => e.key == key) entries with
          | some entry => some entry.value_span
          | none => none) = some s := h
        rcases hfd : entries.find? (fun e => e.key == key) with _ | entry
        · rw [hfd] at h
          cases h
        · rw [hfd] at h
          injection h with h2
          subst h2
          have hmem : entry ∈ entries := List.mem_of_find?_eq_some hfd
          unfold EnvParser.parse at hp
          rcases hlx : EnvParser.lex_with_pos (asBytes content) with e | raw
          · rw [hlx] at hp
            cases hp
          · rw [hlx] at hp
            have hspans := lex_with_pos_spans (asBytes content) raw hlx
            rcases parseEntriesGo_spans content raw [] [] entries hp entry hmem with
              h3 | ⟨r2, hr2, hsp⟩
            · cases h3
            · have := hspans r2 hr2
              rw [hsp]
              omega

end Konficurator

namespace Konficurator

/-- A found `rfind` byte index starts a char inside the text. -/
theorem rfindNonWs_le : ∀ (l : List Char) (k : Nat),
    XmlParser.rfindNonWsByteIdx l = some k → k + 1 ≤ utf8Len l
  | [], k, h => by cases h
  | c :: rest, k, h => by
    have hcs := charSize_pos c
    replace h : (match XmlParser.rfindNonWsByteIdx rest with
      | some k2 => some (charSize c + k2)
      | none => if rustIsWhitespace c then none else some 0) = some k := h
    rcases hr : XmlParser.rfindNonWsByteIdx rest with _ | k2
    · rw [hr] at h
      replace h : (if rustIsWhitespace c then none else some 0) = some k := h
      split at h
      · cases h
      · injection h with h2
        subst h2
        show 0 + 1 ≤ charSize c + utf8Len rest
        omega
    · rw [hr] at h
      replace h : some (charSize c + k2) = some k := h
      injection h with h2
      subst h2
      have := rfindNonWs_le rest k2 hr
      show charSize c + k2 + 1 ≤ charSize c + utf8Len rest
      omega

/-- When `find` hits, `rfind` hits at least as far right. -/
theorem findNonWs_le_rfind : ∀ (l : List Char) (f : Nat),
    XmlParser.findNonWsByteIdx l = some f →
    ∃ k, XmlParser.rfindNonWsByteIdx l = some k ∧ f ≤ k
  | [], f, h => by cases h
  | c :: rest, f, h => by
    replace h : (if rustIsWhitespace c
      then (XmlParser.findNonWsByteIdx rest).map (fun k => charSize c + k)
      else some 0) = some f := h
    split at h
    · rcases hf : XmlParser.findNonWsByteIdx rest with _ | f2
      · rw [hf] at h
        cases h
      · rw [hf] at h
        replace h : some (charSize c + f2) = some f := h
        injection h with h2
        subst h2
        obtain ⟨k2, hk2, hle⟩ := findNonWs_le_rfind rest f2 hf
        refine ⟨charSize c + k2, ?_, by omega⟩
        show (match XmlParser.rfindNonWsByteIdx rest with
          | some k3 => some (charSize c + k3)
          | none => if rustIsWhitespace c then none else some 0) = some (charSize c + k2)
        rw [hk2]
    next hnw =>
      injection h with h2
      subst h2
      rcases hr : XmlParser.rfindNonWsByteIdx rest with _ | k2
      · refine ⟨0, ?_, Nat.le_refl _⟩
        show (match XmlParser.rfindNonWsByteIdx rest with
          | some k3 => some (charSize c + k3)
          | none => if rustIsWhitespace c then none else some 0) = some 0
        rw [hr]
        show (if rustIsWhitespace c then none else some 0) = some 0
        rw [if_neg hnw]
      · refine ⟨charSize c + k2, ?_, by omega⟩
        show (match XmlParser.rfindNonWsByteIdx rest with
          | some k3 => some (charSize c + k3)
          | none => if rustIsWhitespace c then none else some 0) = some (charSize c + k2)
        rw [hr]

end Konficurator

namespace Konficurator

/-- Events emitted for a `<` carry no attribute or text payload, and the
tokenizer continues on a sublist. -/
theorem xmlLt_emit (endOff i : Nat) (rest : List (Nat × Char))
    (ev : Xml.XmlEvent) (m2 : Xml.XmlMode) (l2 : List (Nat × Char))
    (h : Xml.xmlLt endOff i rest = .emit ev m2 l2) :
    ((∀ name v, ev = Xml.XmlEvent.attr name v → v.start + 2 ≤ v.stop ∧ v.stop ≤ endOff) ∧
      (∀ st chars, ev = Xml.XmlEvent.text st chars → st + utf8Len chars ≤ endOff)) ∧
    List.Sublist l2 rest := by
  cases rest with
  | nil =>
    replace h : Xml.XmlStep.halt (some endOff) = .emit ev m2 l2 := h
    cases h
  | cons p r2 =>
    obtain ⟨i2, c2⟩ := p
    simp only [Xml.xmlLt] at h
    repeat' split at h
    all_goals cases h
    · refine ⟨⟨?_, ?_⟩, ?_⟩
      · intro name v hv
        cases hv
      · intro st chars hv
        cases hv
      · rename_i heq
        have e1 : List.Sublist l2 (List.dropWhile (fun p => rustIsWhitespace p.2)
            (List.dropWhile (fun p => Xml.isNameChar p.2) r2)) := by
          rw [heq]
          exact List.sublist_cons_self _ _
        exact e1.trans ((List.dropWhile_sublist _).trans
          ((List.dropWhile_sublist _).trans (List.sublist_cons_self _ _)))
    · refine ⟨⟨?_, ?_⟩, ?_⟩
      · intro name v hv
        cases hv
      · intro st chars hv
        cases hv
      · exact List.dropWhile_sublist _

/-- Content-mode emissions: text events span their run; `<` events delegate. -/
theorem xmlStepContent_emit (endOff : Nat) (l : List (Nat × Char))
    (hp : l.Pairwise (fun a b => a.1 + charSize a.2 ≤ b.1))
    (hb : ∀ p ∈ l, p.1 + charSize p.2 ≤ endOff)
    (ev : Xml.XmlEvent) (m2 : Xml.XmlMode) (l2 : List (Nat × Char))
    (h : Xml.xmlStepContent endOff l = .emit ev m2 l2) :
    ((∀ name v, ev = Xml.XmlEvent.attr name v → v.start + 2 ≤ v.stop ∧ v.stop ≤ endOff) ∧
      (∀ st chars, ev = Xml.XmlEvent.text st chars → st + utf8Len chars ≤ endOff)) ∧
    List.Sublist l2 l := by
  cases l with
  | nil =>
    replace h : Xml.XmlStep.halt none = .emit ev m2 l2 := h
    cases h
  | cons p rest =>
    obtain ⟨i, c⟩ := p
    replace h : (if c == '<' then Xml.xmlLt endOff i rest
      else Xml.XmlStep.emit
        (.text i ((((i, c) :: rest).takeWhile (fun p => !(p.2 == '<'))).map
          (fun p => p.2))) .content
        (((i, c) :: rest).dropWhile (fun p => !(p.2 == '<')))) = .emit ev m2 l2 := h
    split at h
    · obtain ⟨hP, hsub⟩ := xmlLt_emit endOff i rest ev m2 l2 h
      exact ⟨hP, hsub.trans (List.sublist_cons_self _ _)⟩
    next hc =>
      cases h
      refine ⟨⟨?_, ?_⟩, ?_⟩
      · intro name v hv
        cases hv
      · intro st chars hv
        injection hv with h1 h2
        subst h1
        subst h2
        have hpred : ((i, c) :: rest).takeWhile (fun p => !(p.2 == '<')) =
            (i, c) :: rest.takeWhile (fun p => !(p.2 == '<')) :=
          List.takeWhile_cons_of_pos (by simpa using hc)
        rw [hpred]
        have hsub1 : List.Sublist (rest.takeWhile (fun p => !(p.2 == '<'))) rest :=
          List.takeWhile_sublist _
        have hpq := hp.sublist (List.Sublist.cons₂ _ hsub1)
        have hbq : ∀ p ∈ (i, c) :: rest.takeWhile (fun p => !(p.2 == '<')),
            p.1 + charSize p.2 ≤ endOff :=
          fun p hp2 => hb p ((List.Sublist.cons₂ _ hsub1).subset hp2)
        exact offs_utf8_le endOff (rest.takeWhile (fun p => !(p.2 == '<'))) i c hpq hbq
      · exact List.dropWhile_sublist _

/-- Content mode never silently skips. -/
theorem xmlStepContent_skip (endOff : Nat) (l : List (Nat × Char))
    (m2 : Xml.XmlMode) (l2 : List (Nat × Char))
    (h : Xml.xmlStepContent endOff l = .skip m2 l2) : List.Sublist l2 l := by
  cases l with
  | nil =>
    replace h : Xml.XmlStep.halt none = .skip m2 l2 := h
    cases h
  | cons p rest =>
    obtain ⟨i, c⟩ := p
    replace h : (if c == '<' then Xml.xmlLt endOff i rest
      else Xml.XmlStep.emit
        (.text i ((((i, c) :: rest).takeWhile (fun p => !(p.2 == '<'))).map
          (fun p => p.2))) .content
        (((i, c) :: rest).dropWhile (fun p => !(p.2 == '<')))) = .skip m2 l2 := h
    split at h
    · simp only [Xml.xmlLt] at h
      repeat' split at h
      all_goals cases h
    · cases h

/-- The attribute scan emits value spans that include both quotes and end
inside the buffer. -/
theorem xmlAttr_emit (endOff i : Nat) (c : Char) (rest : List (Nat × Char))
    (hp : ((i, c) :: rest).Pairwise (fun a b => a.1 + charSize a.2 ≤ b.1))
    (hb : ∀ p ∈ (i, c) :: rest, p.1 + charSize p.2 ≤ endOff)
    (ev : Xml.XmlEvent) (m2 : Xml.XmlMode) (l2 : List (Nat × Char))
    (h : Xml.xmlAttr endOff i c rest = .emit ev m2 l2) :
    ((∀ name v, ev = Xml.XmlEvent.attr name v → v.start + 2 ≤ v.stop ∧ v.stop ≤ endOff) ∧
      (∀ st chars, ev = Xml.XmlEvent.text st chars → st + utf8Len chars ≤ endOff)) ∧
    List.Sublist l2 ((i, c) :: rest) := by
  simp only [Xml.xmlAttr] at h
  repeat' split at h
  all_goals cases h
  rename_i x2 i3 eqc r3 heq1 heqc x1 qi q r4 heq2 hq x0 qj xg heq3
  have s1 : List.Sublist ((i3, eqc) :: r3) ((i, c) :: rest) := by
    rw [← heq1]
    exact (List.dropWhile_sublist _).trans (List.dropWhile_sublist _)
  have s2 : List.Sublist ((qi, q) :: r4) r3 := by
    rw [← heq2]
    exact List.dropWhile_sublist _
  have s3 : List.Sublist ((qj, xg) :: l2) r4 := by
    rw [← heq3]
    exact List.dropWhile_sublist _
  have sr3 : List.Sublist r3 ((i, c) :: rest) :=
    (List.sublist_cons_self _ _).trans s1
  have sq : List.Sublist ((qi, q) :: r4) ((i, c) :: rest) := s2.trans sr3
  have sqj : (qj, xg) ∈ r4 := s3.subset (List.mem_cons_self _ _)
  have hpq : ((qi, q) :: r4).Pairwise (fun a b => a.1 + charSize a.2 ≤ b.1) :=
    hp.sublist sq
  have hord : qi + charSize q ≤ qj := List.rel_of_pairwise_cons hpq sqj
  have hq2 : q = '"' ∨ q = '\'' := by simpa using hq
  have hq1 : charSize q = 1 := by
    rcases hq2 with rfl | rfl <;> decide
  have hqj : qj + charSize xg ≤ endOff :=
    hb _ (sq.subset (List.mem_cons_of_mem _ sqj))
  have hxg := charSize_pos xg
  refine ⟨⟨?_, ?_⟩, ?_⟩
  · intro name v hv
    injection hv with h1 h2
    subst h2
    constructor
    · show qi + 2 ≤ qj + 1
      omega
    · show qj + 1 ≤ endOff
      omega
  · intro st chars hv
    cases hv
  · exact (List.sublist_cons_self _ _).trans
      (s3.trans ((List.sublist_cons_self _ _).trans sq))

/-- In-tag emissions satisfy the event bounds and continue on a sublist. -/
theorem xmlStepInTag_emit (endOff : Nat) (l : List (Nat × Char))
    (hp : l.Pairwise (fun a b => a.1 + charSize a.2 ≤ b.1))
    (hb : ∀ p ∈ l, p.1 + charSize p.2 ≤ endOff)
    (ev : Xml.XmlEvent) (m2 : Xml.XmlMode) (l2 : List (Nat × Char))
    (h : Xml.xmlStepInTag endOff l = .emit ev m2 l2) :
    ((∀ name v, ev = Xml.XmlEvent.attr name v → v.start + 2 ≤ v.stop ∧ v.stop ≤ endOff) ∧
      (∀ st chars, ev = Xml.XmlEvent.text st chars → st + utf8Len chars ≤ endOff)) ∧
    List.Sublist l2 l := by
  cases l with
  | nil =>
    replace h : Xml.XmlStep.halt (some endOff) = .emit ev m2 l2 := h
    cases h
  | cons p rest =>
    obtain ⟨i, c⟩ := p
    simp only [Xml.xmlStepInTag] at h
    repeat' split at h
    all_goals first
      | cases h
      | (obtain ⟨hP, hsub⟩ := xmlAttr_emit endOff i c rest hp hb ev m2 l2 h
         exact ⟨hP, hsub⟩)
    · refine ⟨⟨?_, ?_⟩, ?_⟩
      · intro name v hv
        cases hv
      · intro st chars hv
        cases hv
      · exact List.sublist_cons_self _ _
    · refine ⟨⟨?_, ?_⟩, ?_⟩
      · intro name v hv
        cases hv
      · intro st chars hv
        cases hv
      · rename_i x0 i2 g r2 hgt
        exact (List.sublist_cons_self _ _).trans (List.sublist_cons_self _ _)

/-- An in-tag skip only drops leading whitespace. -/
theorem xmlStepInTag_skip (endOff : Nat) (l : List (Nat × Char))
    (m2 : Xml.XmlMode) (l2 : List (Nat × Char))
    (h : Xml.xmlStepInTag endOff l = .skip m2 l2) : List.Sublist l2 l := by
  cases l with
  | nil =>
    replace h : Xml.XmlStep.halt (some endOff) = .skip m2 l2 := h
    cases h
  | cons p rest =>
    obtain ⟨i, c⟩ := p
    simp only [Xml.xmlStepInTag] at h
    repeat' split at h
    all_goals first
      | cases h
      | (simp only [Xml.xmlAttr] at h
         repeat' split at h
         all_goals cases h)
    exact List.sublist_cons_self _ _

/-- Every event produced by the modelled tokenizer from a well-formed
indexed char list satisfies the attribute/text bounds. -/
theorem xmlTokF_events (endOff : Nat) :
    ∀ (fuel : Nat) (mode : Xml.XmlMode) (l : List (Nat × Char)),
      l.Pairwise (fun a b => a.1 + charSize a.2 ≤ b.1) →
      (∀ p ∈ l, p.1 + charSize p.2 ≤ endOff) →
      ∀ ev ∈ (Xml.xmlTokF endOff fuel mode l).1,
        (∀ name v, ev = Xml.XmlEvent.attr name v →
          v.start + 2 ≤ v.stop ∧ v.stop ≤ endOff) ∧
        (∀ st chars, ev = Xml.XmlEvent.text st chars → st + utf8Len chars ≤ endOff) := by
  intro fuel
  induction fuel with
  | zero =>
    intro mode l _ _ ev hev
    cases hev
  | succ n ih =>
    intro mode l hp hb ev hev
    replace hev : ev ∈ (match (match mode with
      | Xml.XmlMode.content => Xml.xmlStepContent endOff l
      | Xml.XmlMode.inTag => Xml.xmlStepInTag endOff l) with
      | .halt e => (([] : List Xml.XmlEvent), e)
      | .skip m2 l2 => Xml.xmlTokF endOff n m2 l2
      | .emit ev2 m2 l2 =>
        let res := Xml.xmlTokF endOff n m2 l2
        (ev2 :: res.1, res.2)).1 := hev
    rcases hstep : (match mode with
      | Xml.XmlMode.content => Xml.xmlStepContent endOff l
      | Xml.XmlMode.inTag => Xml.xmlStepInTag endOff l) with ⟨ev2, m2, l2⟩ | ⟨m2, l2⟩ | e
    · rw [hstep] at hev
      have hstep2 : (∀ name v, ev2 = Xml.XmlEvent.attr name v →
          v.start + 2 ≤ v.stop ∧ v.stop ≤ endOff) ∧
          (∀ st chars, ev2 = Xml.XmlEvent.text st chars →
            st + utf8Len chars ≤ endOff) ∧ List.Sublist l2 l := by
        cases mode with
        | content =>
          obtain ⟨hP, hs⟩ := xmlStepContent_emit endOff l hp hb ev2 m2 l2 hstep
          exact ⟨hP.1, hP.2, hs⟩
        | inTag =>
          obtain ⟨hP, hs⟩ := xmlStepInTag_emit endOff l hp hb ev2 m2 l2 hstep
          exact ⟨hP.1, hP.2, hs⟩
      rcases List.mem_cons.mp hev with rfl | hev2
      · exact ⟨hstep2.1, hstep2.2.1⟩
      · exact ih m2 l2 (hp.sublist hstep2.2.2)
          (fun p hp2 => hb p (hstep2.2.2.subset hp2)) ev hev2
    · rw [hstep] at hev
      have hs : List.Sublist l2 l := by
        cases mode with
        | content => exact xmlStepContent_skip endOff l m2 l2 hstep
        | inTag => exact xmlStepInTag_skip endOff l m2 l2 hstep
      exact ih m2 l2 (hp.sublist hs) (fun p hp2 => hb p (hs.subset hp2)) ev hev
    · rw [hstep] at hev
      cases hev

/-- A successful attribute scan returns the quote-trimmed span of an `attr`
event of the scanned stream. -/
theorem attrScan_some : ∀ (evs : List Xml.XmlEvent) (spanStart : Nat)
    (attrName : List Char) (sp : Span),
    XmlParser.attrScan spanStart attrName evs = some sp →
    ∃ nm v, Xml.XmlEvent.attr nm v ∈ evs ∧
      sp = ⟨spanStart + v.start + 1, spanStart + v.stop - 1⟩
  | [], _, _, _, h => by cases h
  | Xml.XmlEvent.attr localName v :: rest, spanStart, attrName, sp, h => by
    replace h : (if localName == attrName
      then some (⟨spanStart + v.start + 1, spanStart + v.stop - 1⟩ : Span)
      else XmlParser.attrScan spanStart attrName rest) = some sp := h
    split at h
    · injection h with h2
      exact ⟨localName, v, List.mem_cons_self _ _, h2.symm⟩
    · obtain ⟨nm, v2, hmem, hsp⟩ := attrScan_some rest spanStart attrName sp h
      exact ⟨nm, v2, List.mem_cons_of_mem _ hmem, hsp⟩
  | Xml.XmlEvent.elementEnd k :: rest, spanStart, attrName, sp, h => by cases h
  | Xml.XmlEvent.elementStart nm s0 :: rest, spanStart, attrName, sp, h => by
    obtain ⟨nm2, v2, hmem, hsp⟩ := attrScan_some rest spanStart attrName sp h
    exact ⟨nm2, v2, List.mem_cons_of_mem _ hmem, hsp⟩
  | Xml.XmlEvent.text s0 cs :: rest, spanStart, attrName, sp, h => by
    obtain ⟨nm2, v2, hmem, hsp⟩ := attrScan_some rest spanStart attrName sp h
    exact ⟨nm2, v2, List.mem_cons_of_mem _ hmem, hsp⟩

/-- Every span found by the XML `find_value_span` event loop is within the
content's byte bounds. -/
theorem xmlFindLoop_bounds (content : List Char) (xp : XmlParser.XmlPath) :
    ∀ (events : List Xml.XmlEvent) (stack : List (List Char)) (intg : Bool) (s : Span),
      (∀ ev ∈ events,
        ∀ st chars, ev = Xml.XmlEvent.text st chars →
          st + utf8Len chars ≤ utf8Len content) →
      XmlParser.findLoop content xp events stack intg = some s →
      s.start ≤ s.stop ∧ s.stop ≤ utf8Len content
  | [], stack, intg, s, hP, h => by cases h
  | ev :: rest, stack, intg, s, hP, h => by
    have hPt : ∀ ev2 ∈ rest, ∀ st chars, ev2 = Xml.XmlEvent.text st chars →
        st + utf8Len chars ≤ utf8Len content :=
      fun ev2 hev2 => hP ev2 (List.mem_cons_of_mem _ hev2)
    cases ev with
    | elementStart localName spanStart =>
      replace h : (if ((stack ++ [localName]).length == xp.elements.length &&
          XmlParser.elements_match (stack ++ [localName]) xp.elements) = true then
          match xp.attr with
          | some attrName => XmlParser.attrScan spanStart attrName
              (Xml.xmlTokenize (dropBytesChars content spanStart)).1
          | none => XmlParser.findLoop content xp rest (stack ++ [localName]) true
        else XmlParser.findLoop content xp rest (stack ++ [localName]) intg) = some s := h
      split at h
      · rcases hattr : xp.attr with _ | attrName
        · rw [hattr] at h
          exact xmlFindLoop_bounds content xp rest _ _ s hPt h
        · rw [hattr] at h
          replace h : XmlParser.attrScan spanStart attrName
            (Xml.xmlTokenize (dropBytesChars content spanStart)).1 = some s := h
          obtain ⟨nm, v, hmem, rfl⟩ := attrScan_some _ _ _ _ h
          have hv := xmlTokF_events (utf8Len (dropBytesChars content spanStart))
            ((dropBytesChars content spanStart).length + 1) .content
            (charIndices (dropBytesChars content spanStart))
            (charIndices_pairwise _) (charIndices_le _) _ hmem
          obtain ⟨h1, h2⟩ := hv.1 nm v rfl
          rcases dropBytesChars_utf8Len content spanStart with hd | hd
          · constructor
            · show spanStart + v.start + 1 ≤ spanStart + v.stop - 1
              omega
            · show spanStart + v.stop - 1 ≤ utf8Len content
              omega
          · constructor
            · show spanStart + v.start + 1 ≤ spanStart + v.stop - 1
              omega
            · show spanStart + v.stop - 1 ≤ utf8Len content
              omega
      · exact xmlFindLoop_bounds content xp rest _ _ s hPt h
    | elementEnd kind =>
      cases kind with
      | tagOpen =>
        replace h : XmlParser.findLoop content xp rest stack intg = some s := h
        exact xmlFindLoop_bounds content xp rest _ _ s hPt h
      | tagEmpty =>
        replace h : XmlParser.findLoop content xp rest stack.dropLast
          (if (intg && xp.attr.isNone) = true then false else intg) = some s := h
        exact xmlFindLoop_bounds content xp rest _ _ s hPt h
      | tagClose =>
        replace h : XmlParser.findLoop content xp rest stack.dropLast
          (if (intg && xp.attr.isNone) = true then false else intg) = some s := h
        exact xmlFindLoop_bounds content xp rest _ _ s hPt h
    | text start chars =>
      replace h : (if (intg && xp.attr.isNone) = true then
          if !((chars.dropWhile rustIsWhitespace).reverse.dropWhile
              rustIsWhitespace).isEmpty then
            some (⟨start + (XmlParser.findNonWsByteIdx chars).getD 0,
              start + (match XmlParser.rfindNonWsByteIdx chars with
                | some k => k + 1
                | none => utf8Len chars)⟩ : Span)
          else XmlParser.findLoop content xp rest stack intg
        else XmlParser.findLoop content xp rest stack intg) = some s := h
      split at h
      · split at h
        · injection h with h2
          subst h2
          have htext := hP _ (List.mem_cons_self _ _) start chars rfl
          rcases hf : XmlParser.findNonWsByteIdx chars with _ | f
          · rcases hr : XmlParser.rfindNonWsByteIdx chars with _ | k
            · constructor
              · show start + 0 ≤ start + utf8Len chars
                omega
              · show start + utf8Len chars ≤ utf8Len content
                omega
            · have hk := rfindNonWs_le chars k hr
              constructor
              · show start + 0 ≤ start + (k + 1)
                omega
              · show start + (k + 1) ≤ utf8Len content
                omega
          · obtain ⟨k, hk, hle⟩ := findNonWs_le_rfind chars f hf
            have hkle := rfindNonWs_le chars k hk
            rw [hk]
            constructor
            · show start + f ≤ start + (k + 1)
              omega
            · show start + (k + 1) ≤ utf8Len content
              omega
        · exact xmlFindLoop_bounds content xp rest _ _ s hPt h
      · exact xmlFindLoop_bounds content xp rest _ _ s hPt h
    | attr nm v =>
      replace h : XmlParser.findLoop content xp rest stack intg = some s := h
      exact xmlFindLoop_bounds content xp rest _ _ s hPt h

/-- XML `find_value_span` spans are in bounds. -/
theorem xml_find_value_span_bounds (content : List Char) (path : List (List Char))
    (s : Span) (h : XmlParser.find_value_span content path = some s) :
    s.start ≤ s.stop ∧ s.stop ≤ (asBytes content).length := by
  unfold XmlParser.find_value_span at h
  split at h
  · cases h
  · rw [asBytes_length]
    refine xmlFindLoop_bounds content (XmlParser.XmlPath.from_path path)
      (Xml.xmlTokenize content).1 [] false s ?_ h
    intro ev hev st chars hevt
    have := xmlTokF_events (utf8Len content) (content.length + 1) .content
      (charIndices content) (charIndices_pairwise content) (charIndices_le content) ev hev
    exact this.2 st chars hevt

end Konficurator

/-- C1 (amended): the identity splice holds whenever both span offsets are
UTF-8 char boundaries — `find_value_span` succeeding with span `s`, the old
literal text `content[s.start..s.stop]` slices without panicking and
`replace_value(content, s, old)` reproduces the content byte for byte
(every returned span is well-formed, `start ≤ stop`, proved per format over
the three parsers).  Unconditionally the claim is false: the program can
return a span whose end is not a char boundary, where Rust `&str` slicing
panics instead of reproducing the content (see the counterexample
theorem). -/
theorem c1_roundtrip_identity (ft : FileType) (content : List Char)
    (path : List (List Char)) (s : Span)
    (h : findValueSpan ft content path = some s)
    (hs : isCharBoundary content s.start = true)
    (he : isCharBoundary content s.stop = true) :
    ∃ old, slice_str content s = some old ∧
      replace_value_str content s old = some (asBytes content) := by
  have hb : s.start ≤ s.stop := by
    cases ft with
    | json => exact (json_find_value_span_bounds content path s h).1
    | env => exact (env_find_value_span_bounds content path s h).1
    | xml => exact (xml_find_value_span_bounds content path s h).1
  refine ⟨sliceBytes (asBytes content) s, ?_, ?_⟩
  · unfold slice_str
    rw [if_pos (by rw [hs, he, decide_eq_true hb]; rfl)]
    rfl
  · unfold replace_value_str
    rw [if_pos (by rw [hs, he]; rfl)]
    exact congrArg some (replace_slice_identity (asBytes content) s hb)

/-- C1 witness at a concrete resolving lookup (`FOO` in an ENV file, both
offsets on char boundaries). -/
theorem c1_roundtrip_identity_witness :
    (findValueSpan .env "FOO=1\n".data ["FOO".data] = some ⟨4, 5⟩ ∧
      isCharBoundary "FOO=1\n".data 4 = true ∧
      isCharBoundary "FOO=1\n".data 5 = true) ∧
    (∃ old, slice_str "FOO=1\n".data ⟨4, 5⟩ = some old ∧
      replace_value_str "FOO=1\n".data ⟨4, 5⟩ old = some (asBytes "FOO=1\n".data)) :=
  ⟨⟨by decide, by decide, by decide⟩,
    c1_roundtrip_identity .env "FOO=1\n".data ["FOO".data] ⟨4, 5⟩
      (by decide) (by decide) (by decide)⟩

/-- C1 counterexample to the unconditional claim: on the JSON text
`\x7b"a": "é` the lookup of key `a` succeeds with span `6..8`, whose end
offset 8 falls inside the two-byte encoding of `é`; the Rust slices
`&content[6..8]` and `&content[8..]` panic there (modelled `none`), so
`replace_value` does not reproduce the content. -/
theorem c1_splice_panic_counterexample :
    JsonParser.find_value_span "\x7b\"a\": \"é".data ["a".data] = some ⟨6, 8⟩ ∧
    slice_str "\x7b\"a\": \"é".data ⟨6, 8⟩ = none ∧
    replace_value_str "\x7b\"a\": \"é".data ⟨6, 8⟩
      (sliceBytes (asBytes "\x7b\"a\": \"é".data) ⟨6, 8⟩) = none := by
  refine ⟨by decide, by decide, by decide⟩

/-- C10 (amended): every span returned by a successful `find_value_span`
(JSON, ENV or XML) is in bounds for its content — `start ≤ stop` and
`stop ≤ content.len()` — so the byte splice of `replace_value` stays in
bounds.  The claim's further assertion that both offsets always lie on
UTF-8 character boundaries is false: the JSON string-value scan can stop in
the middle of a multi-byte character (see the counterexample theorem), where
Rust slicing would panic. -/
theorem c10_span_bounds (ft : FileType) (content : List Char)
    (path : List (List Char)) (s : Span)
    (h : findValueSpan ft content path = some s) :
    s.start ≤ s.stop ∧ s.stop ≤ (asBytes content).length := by
  cases ft with
  | json => exact json_find_value_span_bounds content path s h
  | env => exact env_find_value_span_bounds content path s h
  | xml => exact xml_find_value_span_bounds content path s h

/-- C10 witness at a concrete resolving lookup. -/
theorem c10_span_bounds_witness :
    findValueSpan .env "FOO=1\n".data ["FOO".data] = some ⟨4, 5⟩ ∧
    (4 ≤ 5 ∧ 5 ≤ (asBytes "FOO=1\n".data).length) :=
  ⟨by decide, by
    have h := c10_span_bounds .env "FOO=1\n".data ["FOO".data] ⟨4, 5⟩ (by decide)
    exact h⟩

/-- C10 counterexample to the char-boundary part: on the JSON text
`\x7b"a": "é` (an unterminated string whose last char is two bytes), the
value lookup for `a` succeeds with span `6..8`, whose end offset 8 falls
inside the two-byte encoding of `é` — not a character boundary, although it
is within the byte bounds. -/
theorem c10_boundary_counterexample :
    JsonParser.find_value_span "\x7b\"a\": \"é".data ["a".data] = some ⟨6, 8⟩ ∧
    isCharBoundary "\x7b\"a\": \"é".data 8 = false ∧
    8 ≤ (asBytes "\x7b\"a\": \"é".data).length := by
  refine ⟨by decide, by decide, by decide⟩
